import Mathlib

/-!
Range lists of masscan (`src/ranges.c`)

A shallow embedding of the range-list module: the interval primitive, the
sorted list of intervals with `add` / `remove` / `count` / `pick`, and the text
parsers for addresses and ports.

Conventions of the embedding.

* `unsigned` values are natural numbers; every C operation that can wrap is
  written with an explicit `% 2^32` (or `% 2^64` for `uint64_t`).
* `struct RangeList` is the list of its first `count` entries.  Capacity
  (`max`), `malloc` and the bytes beyond `count` are not modelled.
* Text is a list of byte values (`'0'` is `48`); a C string ends at its first
  zero byte or at the end of the list.
* Loops that the C code can fail to leave take a fuel argument and return
  `none` when it runs out.
-/

namespace Ranges

/-! ## Data model -/

/-- Modelled from the spec: `struct Range` is declared in `ranges.h`, which is
not among the sources; the spec gives it as `{begin: u32, end: u32}`, and
`ranges.c` stores `unsigned` values in both fields.  The field `end` is spelled
`end_` here. -/
structure Range where
  begin : Nat
  end_ : Nat
deriving DecidableEq, Repr

/-- Modelled from the spec: `struct RangeList` is declared in `ranges.h`, which
is not among the sources; `ranges.c` uses its fields `list`, `count` and `max`.
The list stands for the entries `list[0 .. count-1]`. -/
abbrev RangeList := List Range

/-! ## Interval primitive -/

/-- The function `range_is_overlap`: four guarded tests in source order.
`lhs.end + 1` is 32-bit addition. -/
def range_is_overlap (lhs rhs : Range) : Bool :=
  if lhs.begin < rhs.begin ∧ (lhs.end_ = 0xFFFFFFFF ∨ (lhs.end_ + 1) % 2^32 ≥ rhs.begin) then true
  else if lhs.begin ≥ rhs.begin ∧ lhs.end_ ≤ rhs.end_ then true
  else if rhs.begin < lhs.begin ∧ (rhs.end_ = 0xFFFFFFFF ∨ (rhs.end_ + 1) % 2^32 ≥ lhs.begin) then true
  else if rhs.begin ≥ lhs.begin ∧ rhs.end_ ≤ lhs.end_ then true
  else false

/-- The function `range_combine`: widen `lhs` to include `rhs`. -/
def range_combine (lhs rhs : Range) : Range :=
  let b := if lhs.begin > rhs.begin then rhs.begin else lhs.begin
  let e := if lhs.end_ < rhs.end_ then rhs.end_ else lhs.end_
  ⟨b, e⟩

/-! ## Range list: add -/

/-- The function `todo_remove_at`: the `memmove` brings the entries above
`index` down one slot and `count` drops by one. -/
def todo_remove_at (task : RangeList) (index : Nat) : RangeList :=
  task.eraseIdx index

/-- First loop of `rangelist_add_range`: the smallest `i` with
`range_is_overlap(task->list[i], range)`, paired with that entry. -/
def first_overlap : RangeList → Range → Option (Nat × Range)
  | [], _ => none
  | c :: rest, range =>
    if range_is_overlap c range then some (0, c)
    else (first_overlap rest range).map (fun p => (p.1 + 1, p.2))

/-- Second loop of `rangelist_add_range` with the store that follows it: the
new entry goes before the first entry whose `begin` is larger, or at the end. -/
def insert_sorted : RangeList → Range → RangeList
  | [], range => [range]
  | c :: rest, range =>
    if range.begin < c.begin then range :: c :: rest
    else c :: insert_sorted rest range

/-- Body of `rangelist_add_range`.  The first argument bounds the recursion
depth; `rangelist_add_range` passes the entry count, which drops by one at each
recursive call, so the bound is never met while an overlap is left
(`rangelist_add_range_unfold` states the recursion of the C function without
the bound). -/
def add_range_rec : Nat → RangeList → Range → RangeList
  | 0, task, range => insert_sorted task range
  | depth + 1, task, range =>
    match first_overlap task range with
    | some (i, c) => add_range_rec depth (todo_remove_at task i) (range_combine range c)
    | none => insert_sorted task range

/-- The function `rangelist_add_range`. -/
def rangelist_add_range (task : RangeList) (begin end_ : Nat) : RangeList :=
  add_range_rec task.length task ⟨begin, end_⟩

/-- The recursion of `rangelist_add_range` with an explicit call budget instead
of the entry count: each call of the C function, the first one included, takes
one unit, and `none` means the budget ran out before the function returned. -/
def add_range_fuel : Nat → RangeList → Range → Option RangeList
  | 0, _, _ => none
  | fuel + 1, task, range =>
    match first_overlap task range with
    | some (i, c) => add_range_fuel fuel (todo_remove_at task i) (range_combine range c)
    | none => some (insert_sorted task range)

/-- The function `rangelist_add_range2`. -/
def rangelist_add_range2 (task : RangeList) (range : Range) : RangeList :=
  rangelist_add_range task range.begin range.end_

/-! ## Well-formed lists and the covered set -/

/-- Every entry is a 32-bit interval with `begin <= end`. -/
def entries_valid (L : RangeList) : Prop :=
  ∀ r ∈ L, r.begin ≤ r.end_ ∧ r.end_ ≤ 0xFFFFFFFF

/-- Consecutive entries `a`, `b` satisfy `a.end < 0xFFFFFFFF` and
`a.end + 1 < b.begin`. -/
def gaps_ok : RangeList → Prop
  | [] => True
  | [_] => True
  | a :: b :: rest => (a.end_ < 0xFFFFFFFF ∧ a.end_ + 1 < b.begin) ∧ gaps_ok (b :: rest)

/-- The range-list invariant: valid 32-bit entries, separated by a gap of at
least one integer. -/
def well_formed (L : RangeList) : Prop := entries_valid L ∧ gaps_ok L

/-- The integer `x` lies in some entry of `L`. -/
def covered (L : RangeList) (x : Nat) : Prop :=
  ∃ r ∈ L, r.begin ≤ x ∧ x ≤ r.end_

/-- Entries are strictly ascending by `begin`. -/
def ascending (L : RangeList) : Prop :=
  List.Pairwise (fun a b => a.begin < b.begin) L

instance (L : RangeList) : Decidable (entries_valid L) := by
  unfold entries_valid; infer_instance

instance gaps_ok_decidable : (L : RangeList) → Decidable (gaps_ok L)
  | [] => isTrue trivial
  | [_] => isTrue trivial
  | a :: b :: rest =>
    have := gaps_ok_decidable (b :: rest)
    by unfold gaps_ok; infer_instance

instance (L : RangeList) : Decidable (well_formed L) := by
  unfold well_formed; infer_instance

instance (L : RangeList) (x : Nat) : Decidable (covered L x) := by
  unfold covered; infer_instance

instance (L : RangeList) : Decidable (ascending L) := by
  unfold ascending; infer_instance

/-- Separation in the all-pairs form used by the proofs. -/
def separated (L : RangeList) : Prop :=
  List.Pairwise (fun a b => a.end_ + 1 < b.begin) L

/-! ## Range list: remove -/

/-- The `for` loop of `rangelist_remove_range`, entered at index `i`.  The
pair `i--; continue;` followed by the loop's `i++` leaves `i` unchanged (also
at `i = 0`, where the unsigned index wraps down and up again).  `end + 1` and
`begin - 1` are 32-bit operations.  The loop has no bound of its own, so the
first argument is fuel: `none` means the fuel ran out before the loop ended. -/
def remove_loop : Nat → RangeList → Nat → Nat → Nat → Option RangeList
  | 0, _, _, _, _ => none
  | fuel + 1, task, i, begin, end_ =>
    match task.get? i with
    | none => some task
    | some cur =>
      if range_is_overlap cur ⟨begin, end_⟩ = false then
        remove_loop fuel task (i + 1) begin end_
      else if begin ≤ cur.begin ∧ end_ ≥ cur.end_ then
        remove_loop fuel (todo_remove_at task i) i begin end_
      else if begin > cur.begin ∧ end_ < cur.end_ then
        let newrange : Range := ⟨(end_ + 1) % 2^32, cur.end_⟩
        let task1 := task.set i ⟨cur.begin, (begin + 2^32 - 1) % 2^32⟩
        remove_loop fuel (rangelist_add_range task1 newrange.begin newrange.end_) i begin end_
      else
        let cur1 : Range :=
          if end_ ≥ cur.begin ∧ end_ < cur.end_ then ⟨(end_ + 1) % 2^32, cur.end_⟩ else cur
        let cur2 : Range :=
          if begin > cur1.begin ∧ begin ≤ cur1.end_ then ⟨cur1.begin, (begin + 2^32 - 1) % 2^32⟩
          else cur1
        remove_loop fuel (task.set i cur2) (i + 1) begin end_

/-- The function `rangelist_remove_range`, with the fuel of its loop. -/
def rangelist_remove_range (fuel : Nat) (task : RangeList) (begin end_ : Nat) :
    Option RangeList :=
  remove_loop fuel task 0 begin end_

/-- The function `rangelist_remove_range2`. -/
def rangelist_remove_range2 (fuel : Nat) (task : RangeList) (range : Range) :
    Option RangeList :=
  rangelist_remove_range fuel task range.begin range.end_

/-- What is left of the entry `c` once `[b, e]` is taken out of it: nothing, `c`
itself, one shortened entry, or the two sides of a split.  This is the
reference against which the loop of `rangelist_remove_range` is compared. -/
def remove_pieces (b e : Nat) (c : Range) : List Range :=
  if e < c.begin ∨ c.end_ < b then [c]
  else if b ≤ c.begin ∧ c.end_ ≤ e then []
  else if c.begin < b ∧ e < c.end_ then [⟨c.begin, b - 1⟩, ⟨e + 1, c.end_⟩]
  else if e < c.end_ then [⟨e + 1, c.end_⟩]
  else [⟨c.begin, b - 1⟩]

/-- Entry-by-entry subtraction of `[b, e]`, the reference for removal. -/
def remove_spec (b e : Nat) : RangeList → RangeList
  | [] => []
  | c :: rest => remove_pieces b e c ++ remove_spec b e rest

/-! ## Count and pick -/

/-- The function `rangelist_count`: each term is `(uint64_t)end - (uint64_t)begin + 1UL`
and the sum is kept in a `uint64_t`. -/
def rangelist_count (targets : RangeList) : Nat :=
  targets.foldl
    (fun result c => (result + ((c.end_ + 2^64 - c.begin) % 2^64 + 1) % 2^64) % 2^64) 0

/-- The call `rangelist_count(targets)` as a state transformer: the body has no
store through `targets`, so the list comes back as it went in. -/
def rangelist_count_st (targets : RangeList) : Nat × RangeList :=
  (rangelist_count targets, targets)

/-- The function `rangelist_pick`.  The entry size `end - begin + 1` is formed
from two `unsigned` operands, hence in 32 bits, and only then stored in the
`uint64_t range`.  Leaving the loop reaches `assert(!"end of list")`, which is
`none` here. -/
def rangelist_pick : RangeList → Nat → Option Nat
  | [], _ => none
  | c :: rest, index =>
    let range := ((c.end_ + 2^32 - c.begin) % 2^32 + 1) % 2^32
    if index < range then some ((c.begin + index) % 2^64 % 2^32)
    else rangelist_pick rest ((index + 2^64 - range) % 2^64)

/-- Sum of the entry sizes `end - begin + 1` over the naturals. -/
def size_sum : RangeList → Nat
  | [] => 0
  | c :: rest => (c.end_ - c.begin + 1) + size_sum rest

/-! ## Text -/

/-- The byte `line[offset]`; past the end of the text it is the terminating
zero. -/
def char_at (line : List Nat) (offset : Nat) : Nat := line.getD offset 0

/-- The C library's `isdigit` in the "C" locale. -/
def isdigit (c : Nat) : Bool := decide (48 ≤ c ∧ c ≤ 57)

/-- The C library's `isspace` in the "C" locale: space and `\t \n \v \f \r`. -/
def isspace (c : Nat) : Bool := decide (c = 32 ∨ (9 ≤ c ∧ c ≤ 13))

/-- The C library's `strlen`, cast to `unsigned` as in `range_parse_ipv4`. -/
def strlen (line : List Nat) : Nat := (line.takeWhile (fun c => c != 0)).length % 2^32

/-- The bytes of a string literal. -/
def bytes (s : String) : List Nat := s.toList.map Char.toNat

/-! ## Address parser -/

/-- The loop `while (offset < max && isdigit(line[offset]&0xFF))` that
accumulates a decimal number in an `unsigned`.  It is used for each octet in
`parse_ipv4` and for the prefix length in `range_parse_ipv4`.  The first
argument is the distance `max - offset`, which the loop cannot outrun.
Result: the number and the new offset. -/
def scan_number (line : List Nat) (max : Nat) : Nat → Nat → Nat → Nat × Nat
  | 0, offset, x => (x, offset)
  | fuel + 1, offset, x =>
    if offset < max ∧ isdigit (char_at line offset &&& 0xFF) = true then
      scan_number line max fuel (offset + 1) ((x * 10 + (char_at line offset - 48)) % 2^32)
    else (x, offset)

/-- The loop `while (offset < max && isspace(line[offset]&0xFF)) offset++`. -/
def skip_space (line : List Nat) (max : Nat) : Nat → Nat → Nat
  | 0, offset => offset
  | fuel + 1, offset =>
    if offset < max ∧ isspace (char_at line offset &&& 0xFF) = true then
      skip_space line max fuel (offset + 1)
    else offset

/-- The `for (i=0; i<4; i++)` loop of `parse_ipv4`; the first argument counts
the iterations left.  Result: the address and the new offset. -/
def parse_ipv4_loop (line : List Nat) (max : Nat) : Nat → Nat → Nat → Nat × Nat
  | 0, offset, result => (result, offset)
  | n + 1, offset, result =>
    let xo := scan_number line max (max - offset) offset 0
    let result1 := (result * 256 + (xo.1 &&& 0xFF)) % 2^32
    if xo.2 ≥ max ∨ char_at line xo.2 ≠ 46 then (result1, xo.2)
    else parse_ipv4_loop line max n (xo.2 + 1) result1

/-- The function `parse_ipv4`: the address and the updated `*inout_offset`. -/
def parse_ipv4 (line : List Nat) (inout_offset max : Nat) : Nat × Nat :=
  parse_ipv4_loop line max 4 inout_offset 0

/-- The function `range_parse_ipv4`.  `inout_offset = none` is the NULL pointer:
the text is then read from offset 0 up to its `strlen`.  Result: the range and
the final offset.  The shift `0xFFFFFFFF00000000UL >> prefix` is the 64-bit
shift for `prefix < 64` (C leaves larger shifts undefined). -/
def range_parse_ipv4 (line : List Nat) (inout_offset : Option Nat) (max : Nat) :
    Range × Nat :=
  let max := match inout_offset with
    | none => strlen line
    | some _ => max
  let offset := match inout_offset with
    | none => 0
    | some o => o
  let offset := skip_space line max (max - offset) offset
  let bo := parse_ipv4 line offset max
  let begin := bo.1
  let offset := skip_space line max (max - bo.2) bo.2
  if offset ≥ max then (⟨begin, begin⟩, offset)
  else if char_at line offset = 47 then
    let po := scan_number line max (max - (offset + 1)) (offset + 1) 0
    let mask := 0xFFFFFFFF00000000 >>> po.1
    let b := (begin &&& mask) % 2^32
    (⟨b, b ||| ((2^64 - 1 - mask) % 2^32)⟩, po.2)
  else if offset < max ∧ char_at line offset = 45 then
    let io := parse_ipv4 line (offset + 1) max
    if io.1 < begin then (⟨0xFFFFFFFF, 0x00000000⟩, io.2)
    else (⟨begin, io.1⟩, io.2)
  else (⟨begin, begin⟩, offset)

/-- A non-empty run of decimal digits. -/
def is_digits (ds : List Nat) : Prop := ds ≠ [] ∧ ∀ c ∈ ds, 48 ≤ c ∧ c ≤ 57

/-- Value of a digit run continued from the value `x`. -/
def decimal_from (x : Nat) (ds : List Nat) : Nat :=
  ds.foldl (fun v c => v * 10 + (c - 48)) x

/-- Numeric value of a run of decimal digits. -/
def decimal_value (ds : List Nat) : Nat := decimal_from 0 ds

/-- The text `a.b.c.d` built from four digit runs. -/
def dotted (da db dc dd : List Nat) : List Nat :=
  da ++ 46 :: (db ++ 46 :: (dc ++ 46 :: dd))

/-- The usual value of a dotted quad with octets `a b c d`. -/
def quad (a b c d : Nat) : Nat := a * 2^24 + b * 2^16 + c * 2^8 + d

instance (ds : List Nat) : Decidable (is_digits ds) := by
  unfold is_digits; infer_instance

/-! ## Port parser -/

/-- The byte `*p` of a C string given by its remaining bytes: zero at the end. -/
def cur (p : List Nat) : Nat := p.headD 0

/-- Value of a byte as a digit in `strtoul`: `0-9`, then letters of either
case from 10 on. -/
def digit_val (c : Nat) : Option Nat :=
  if 48 ≤ c ∧ c ≤ 57 then some (c - 48)
  else if 97 ≤ c ∧ c ≤ 122 then some (c - 97 + 10)
  else if 65 ≤ c ∧ c ≤ 90 then some (c - 65 + 10)
  else none

/-- Longest run of digits valid in `base`: its value continued from `acc`, the
number of digits read, and the bytes left. -/
def strtoul_digits (base : Nat) : List Nat → Nat → Nat → Nat × Nat × List Nat
  | [], acc, n => (acc, n, [])
  | c :: rest, acc, n =>
    match digit_val c with
    | some d =>
      if d < base then strtoul_digits base rest (acc * base + d) (n + 1)
      else (acc, n, c :: rest)
    | none => (acc, n, c :: rest)

/-- The byte `c` is a digit of the given base. -/
def is_digit_in (base c : Nat) : Bool :=
  match digit_val c with
  | some d => decide (d < base)
  | none => false

/-- Base selection and digit run of `strtoul` with base 0, applied to the text
after white space and sign: `0x`/`0X` before a hexadecimal digit selects base
16, another leading `0` base 8, anything else base 10.  Result: value, number
of digits read, bytes left. -/
def strtoul_number (s1 : List Nat) : Nat × Nat × List Nat :=
  if cur s1 = 48 ∧ (cur s1.tail = 120 ∨ cur s1.tail = 88) ∧
      is_digit_in 16 (cur s1.tail.tail) = true then
    strtoul_digits 16 s1.tail.tail 0 0
  else if cur s1 = 48 then strtoul_digits 8 s1 0 0
  else strtoul_digits 10 s1 0 0

/-- Modelled from the spec: the C library function `strtoul(nptr, &endptr, 0)`,
which is not part of the repository (the spec says "parse a decimal (or
`0x`-prefixed) integer").  After ISO C: leading white space and an optional
sign are skipped; the base is selected and the longest run of digits is read;
with no digit at all the value is 0 and `endptr` is `nptr`; a value above
`ULONG_MAX` (here `2^64 - 1`) yields `ULONG_MAX`; a minus sign negates modulo
`2^64`.  Result: the value and the bytes from `endptr` on. -/
def strtoul (nptr : List Nat) : Nat × List Nat :=
  let s := nptr.dropWhile (fun c => c != 0 && isspace c)
  let s1 := if cur s = 45 ∨ cur s = 43 then s.tail else s
  let r := strtoul_number s1
  if r.2.1 = 0 then (0, nptr)
  else if r.1 > 2^64 - 1 then (2^64 - 1, r.2.2)
  else if cur s = 45 then ((2^64 - r.1) % 2^64, r.2.2)
  else (r.1, r.2.2)

/-- The loop `while (*p && isspace(*p & 0xFF)) p++` of `rangelist_parse_ports`. -/
def skip_spaces : List Nat → List Nat
  | [] => []
  | c :: rest => if c ≠ 0 ∧ isspace (c &&& 0xFF) = true then skip_spaces rest else c :: rest

/-- The function `rangelist_parse_ports`; `p` is the text from the pointer `p`
on.  The values of `strtoul` are stored in `unsigned` variables, hence reduced
modulo `2^32`.  The loop has no bound of its own, so the first argument is
fuel: `none` means the fuel ran out before the loop ended. -/
def rangelist_parse_ports : Nat → RangeList → List Nat → Option RangeList
  | 0, _, _ => none
  | fuel + 1, ports, p =>
    if cur p = 0 then some ports
    else
      let p1 := skip_spaces p
      if cur p1 = 0 then some ports
      else
        let r1 := strtoul p1
        let port := r1.1 % 2^32
        let r2 := if cur r1.2 = 45 then strtoul r1.2.tail else (port, r1.2)
        let end_ := r2.1 % 2^32
        let p2 := if cur r2.2 = 44 then r2.2.tail else r2.2
        if port > 0xFFFF ∨ end_ > 0xFFFF ∨ end_ < port then some ports
        else rangelist_parse_ports fuel (rangelist_add_range ports port end_) p2

/-- A decimal numeral without leading zeros: a non-empty digit run that is
`"0"` or does not start with `0`. -/
def is_numeral (ds : List Nat) : Prop := is_digits ds ∧ (ds = [48] ∨ ds.head? ≠ some 48)

/-- One item of a port list: a first numeral and, for a dashed item, a second. -/
abbrev PortItem := List Nat × Option (List Nat)

/-- First port of an item. -/
def item_begin (it : PortItem) : Nat := decimal_value it.1

/-- Last port of an item: the second numeral if there is one. -/
def item_end (it : PortItem) : Nat :=
  match it.2 with
  | none => decimal_value it.1
  | some q => decimal_value q

/-- The text `p` or `p-q` of an item. -/
def item_text (it : PortItem) : List Nat :=
  match it.2 with
  | none => it.1
  | some q => it.1 ++ 45 :: q

/-- The second numeral of an item, when there is one, has no leading zeros. -/
def last_ok : Option (List Nat) → Prop
  | none => True
  | some q => is_numeral q

/-- An item `p` or `p-q` with numerals without leading zeros and
`p <= q <= 65535`. -/
def item_ok (it : PortItem) : Prop :=
  is_numeral it.1 ∧ last_ok it.2 ∧ item_begin it ≤ item_end it ∧ item_end it ≤ 65535

/-- An invalid item whose values fit an `unsigned`: numerals without leading
zeros with values below `2^32`, where a value exceeds 65535 or the last port is
below the first. -/
def item_bad (it : PortItem) : Prop :=
  is_numeral it.1 ∧ last_ok it.2 ∧ item_begin it < 2^32 ∧ item_end it < 2^32 ∧
    (item_begin it > 65535 ∨ item_end it > 65535 ∨ item_end it < item_begin it)

/-- The items joined by commas. -/
def ports_text : List PortItem → List Nat
  | [] => []
  | [it] => item_text it
  | it :: more => item_text it ++ 44 :: ports_text more

/-- One call of `rangelist_add_range` per item, in order. -/
def add_items (L : RangeList) (items : List PortItem) : RangeList :=
  items.foldl (fun acc it => rangelist_add_range acc (item_begin it) (item_end it)) L

instance (ds : List Nat) : Decidable (is_numeral ds) := by
  unfold is_numeral; infer_instance

instance : (o : Option (List Nat)) → Decidable (last_ok o)
  | none => isTrue trivial
  | some q => inferInstanceAs (Decidable (is_numeral q))

instance (it : PortItem) : Decidable (item_ok it) := by
  unfold item_ok; infer_instance

/-! # Theorems -/

/-! ## Lemmas on the interval primitive -/

theorem overlap_iff (l r : Range) (hl : l.begin ≤ l.end_) (hl2 : l.end_ ≤ 0xFFFFFFFF)
    (hr : r.begin ≤ r.end_) (hr2 : r.end_ ≤ 0xFFFFFFFF) :
    range_is_overlap l r = true ↔ (l.begin ≤ r.end_ + 1 ∧ r.begin ≤ l.end_ + 1) := by
  unfold range_is_overlap
  split_ifs <;> simp <;> omega

theorem combine_begin (l r : Range) : (range_combine l r).begin = min l.begin r.begin := by
  unfold range_combine
  simp only
  split_ifs <;> omega

theorem combine_end (l r : Range) : (range_combine l r).end_ = max l.end_ r.end_ := by
  unfold range_combine
  simp only
  split_ifs <;> omega

/-! ## Lemmas on the list invariant -/

theorem gaps_head (a : Range) (L : RangeList) (hv : entries_valid (a :: L))
    (hg : gaps_ok (a :: L)) : ∀ d ∈ L, a.end_ + 1 < d.begin := by
  induction L generalizing a with
  | nil => intro d hd; cases hd
  | cons b rest ih =>
    intro d hd
    obtain ⟨⟨_, h1⟩, h2⟩ := hg
    rcases List.mem_cons.mp hd with rfl | hd
    · exact h1
    · have hb := hv b (by simp)
      have hvb : entries_valid (b :: rest) := fun r hr => hv r (List.mem_cons_of_mem _ hr)
      have := ih b hvb h2 _ hd
      omega

theorem well_formed_iff (L : RangeList) :
    well_formed L ↔ entries_valid L ∧ separated L := by
  unfold well_formed
  constructor
  · rintro ⟨hv, hg⟩
    refine ⟨hv, ?_⟩
    induction L with
    | nil => exact List.Pairwise.nil
    | cons a L ih =>
      have hvL : entries_valid L := fun r hr => hv r (List.mem_cons_of_mem _ hr)
      have hgL : gaps_ok L := by
        cases L with
        | nil => trivial
        | cons b rest => exact hg.2
      exact List.Pairwise.cons (gaps_head a L hv hg) (ih hvL hgL)
  · rintro ⟨hv, hs⟩
    refine ⟨hv, ?_⟩
    induction L with
    | nil => trivial
    | cons a L ih =>
      cases L with
      | nil => trivial
      | cons b rest =>
        have hvL : entries_valid (b :: rest) := fun r hr => hv r (List.mem_cons_of_mem _ hr)
        have hs2 := List.pairwise_cons.mp hs
        have hab := hs2.1 b (by simp)
        have hb := hv b (by simp)
        exact ⟨⟨by omega, hab⟩, ih hvL hs2.2⟩

theorem entries_valid_cons (a : Range) (L : RangeList) :
    entries_valid (a :: L) ↔ (a.begin ≤ a.end_ ∧ a.end_ ≤ 0xFFFFFFFF) ∧ entries_valid L := by
  unfold entries_valid
  simp

theorem entries_valid_append (P S : RangeList) :
    entries_valid (P ++ S) ↔ entries_valid P ∧ entries_valid S := by
  unfold entries_valid
  simp only [List.mem_append]
  constructor
  · intro h
    exact ⟨fun r hr => h r (Or.inl hr), fun r hr => h r (Or.inr hr)⟩
  · rintro ⟨h1, h2⟩ r (hr | hr)
    · exact h1 r hr
    · exact h2 r hr

theorem covered_cons (a : Range) (L : RangeList) (x : Nat) :
    covered (a :: L) x ↔ (a.begin ≤ x ∧ x ≤ a.end_) ∨ covered L x := by
  unfold covered
  simp

theorem covered_append (P S : RangeList) (x : Nat) :
    covered (P ++ S) x ↔ covered P x ∨ covered S x := by
  unfold covered
  simp only [List.mem_append]
  constructor
  · rintro ⟨r, hr | hr, h⟩
    · exact Or.inl ⟨r, hr, h⟩
    · exact Or.inr ⟨r, hr, h⟩
  · rintro (⟨r, hr, h⟩ | ⟨r, hr, h⟩)
    · exact ⟨r, Or.inl hr, h⟩
    · exact ⟨r, Or.inr hr, h⟩

theorem covered_nil (x : Nat) : ¬ covered [] x := by
  unfold covered
  simp

/-! ## Lemmas on `rangelist_add_range` -/

theorem todo_remove_at_append (pre post : RangeList) (c : Range) :
    todo_remove_at (pre ++ c :: post) pre.length = pre ++ post := by
  unfold todo_remove_at
  induction pre with
  | nil => rfl
  | cons a pre ih => simp [List.eraseIdx, ih]

theorem first_overlap_none (task : RangeList) (range : Range)
    (h : first_overlap task range = none) : ∀ c ∈ task, range_is_overlap c range = false := by
  induction task with
  | nil => intro c hc; cases hc
  | cons a rest ih =>
    unfold first_overlap at h
    split_ifs at h with ha
    simp only [Option.map_eq_none'] at h
    intro c hc
    rcases List.mem_cons.mp hc with rfl | hc
    · simpa using ha
    · exact ih h c hc

theorem first_overlap_some (task : RangeList) (range : Range) (i : Nat) (c : Range)
    (h : first_overlap task range = some (i, c)) :
    ∃ pre post, task = pre ++ c :: post ∧ i = pre.length ∧ range_is_overlap c range = true := by
  induction task generalizing i with
  | nil => simp [first_overlap] at h
  | cons a rest ih =>
    unfold first_overlap at h
    split_ifs at h with ha
    · simp only [Option.some.injEq, Prod.mk.injEq] at h
      obtain ⟨rfl, rfl⟩ := h
      exact ⟨[], rest, rfl, rfl, ha⟩
    · simp only [Option.map_eq_some', Prod.mk.injEq] at h
      obtain ⟨⟨j, d⟩, hj, rfl, rfl⟩ := h
      obtain ⟨pre, post, rfl, rfl, hov⟩ := ih j hj
      exact ⟨a :: pre, post, rfl, rfl, hov⟩

theorem mem_insert_sorted (L : RangeList) (range r : Range) :
    r ∈ insert_sorted L range ↔ r = range ∨ r ∈ L := by
  induction L with
  | nil => simp [insert_sorted]
  | cons a rest ih =>
    unfold insert_sorted
    split_ifs
    · simp
    · simp only [List.mem_cons, ih]
      tauto

theorem separated_insert_sorted (L : RangeList) (range : Range)
    (hv : entries_valid L) (hs : separated L)
    (hr : range.begin ≤ range.end_) (hr2 : range.end_ ≤ 0xFFFFFFFF)
    (hno : ∀ c ∈ L, range_is_overlap c range = false) :
    separated (insert_sorted L range) := by
  induction L with
  | nil => simp [insert_sorted, separated]
  | cons a rest ih =>
    have hva := hv a (by simp)
    have hvr : entries_valid rest := fun r h => hv r (List.mem_cons_of_mem _ h)
    have hs2 := List.pairwise_cons.mp hs
    have hna := hno a (by simp)
    have hna2 : ¬ (a.begin ≤ range.end_ + 1 ∧ range.begin ≤ a.end_ + 1) := by
      rw [← overlap_iff a range hva.1 hva.2 hr hr2, hna]; simp
    unfold insert_sorted
    split_ifs with hlt
    · refine List.Pairwise.cons ?_ hs
      intro d hd
      rcases List.mem_cons.mp hd with rfl | hd
      · omega
      · have := hs2.1 d hd
        omega
    · refine List.Pairwise.cons ?_ (ih hvr hs2.2 (fun c hc => hno c (List.mem_cons_of_mem _ hc)))
      intro d hd
      rcases (mem_insert_sorted rest range d).mp hd with rfl | hd
      · omega
      · exact hs2.1 d hd

theorem insert_sorted_spec (L : RangeList) (range : Range)
    (hv : entries_valid L) (hs : separated L)
    (hr : range.begin ≤ range.end_) (hr2 : range.end_ ≤ 0xFFFFFFFF)
    (hno : ∀ c ∈ L, range_is_overlap c range = false) :
    entries_valid (insert_sorted L range) ∧ separated (insert_sorted L range) ∧
      ∀ x, covered (insert_sorted L range) x ↔
        covered L x ∨ (range.begin ≤ x ∧ x ≤ range.end_) := by
  refine ⟨?_, separated_insert_sorted L range hv hs hr hr2 hno, ?_⟩
  · intro r hm
    rcases (mem_insert_sorted L range r).mp hm with rfl | hm
    · exact ⟨hr, hr2⟩
    · exact hv r hm
  · intro x
    unfold covered
    constructor
    · rintro ⟨r, hm, hx⟩
      rcases (mem_insert_sorted L range r).mp hm with rfl | hm
      · exact Or.inr hx
      · exact Or.inl ⟨r, hm, hx⟩
    · rintro (⟨r, hm, hx⟩ | hx)
      · exact ⟨r, (mem_insert_sorted L range r).mpr (Or.inr hm), hx⟩
      · exact ⟨range, (mem_insert_sorted L range range).mpr (Or.inl rfl), hx⟩

theorem separated_remove_mid (pre post : RangeList) (c : Range)
    (hs : separated (pre ++ c :: post)) : separated (pre ++ post) := by
  unfold separated at *
  rw [List.pairwise_append] at hs ⊢
  obtain ⟨h1, h2, h3⟩ := hs
  exact ⟨h1, (List.pairwise_cons.mp h2).2, fun a ha b hb => h3 a ha b (List.mem_cons_of_mem _ hb)⟩

theorem add_range_rec_spec (n : Nat) (task : RangeList) (range : Range)
    (hn : task.length ≤ n) (hv : entries_valid task) (hs : separated task)
    (hr : range.begin ≤ range.end_) (hr2 : range.end_ ≤ 0xFFFFFFFF) :
    entries_valid (add_range_rec n task range) ∧ separated (add_range_rec n task range) ∧
      ∀ x, covered (add_range_rec n task range) x ↔
        covered task x ∨ (range.begin ≤ x ∧ x ≤ range.end_) := by
  induction n generalizing task range with
  | zero =>
    have : task = [] := List.length_eq_zero.mp (Nat.le_zero.mp hn)
    subst this
    simp only [add_range_rec]
    exact insert_sorted_spec [] range hv hs hr hr2 (fun c hc => by cases hc)
  | succ n ih =>
    simp only [add_range_rec]
    split
    next i c heq =>
      obtain ⟨pre, post, rfl, rfl, hov⟩ := first_overlap_some task range i c heq
      rw [todo_remove_at_append]
      have hvc : c.begin ≤ c.end_ ∧ c.end_ ≤ 0xFFFFFFFF := hv c (by simp)
      have hov2 := (overlap_iff c range hvc.1 hvc.2 hr hr2).mp hov
      have hv2 : entries_valid (pre ++ post) := by
        intro r hm
        refine hv r ?_
        rcases List.mem_append.mp hm with h | h
        · exact List.mem_append.mpr (Or.inl h)
        · exact List.mem_append.mpr (Or.inr (List.mem_cons_of_mem _ h))
      have hlen : (pre ++ post).length ≤ n := by
        simp only [List.length_append, List.length_cons] at hn ⊢
        omega
      have hb := combine_begin range c
      have he := combine_end range c
      obtain ⟨r1, r2, r3⟩ := ih (pre ++ post) (range_combine range c) hlen hv2
        (separated_remove_mid pre post c hs) (by rw [hb, he]; omega) (by rw [he]; omega)
      refine ⟨r1, r2, ?_⟩
      intro x
      rw [r3, hb, he, covered_append, covered_append, covered_cons]
      constructor
      · rintro ((h | h) | h)
        · exact Or.inl (Or.inl h)
        · exact Or.inl (Or.inr (Or.inr h))
        · by_cases hx : range.begin ≤ x ∧ x ≤ range.end_
          · exact Or.inr hx
          · exact Or.inl (Or.inr (Or.inl (by omega)))
      · rintro ((h | h | h) | h)
        · exact Or.inl (Or.inl h)
        · exact Or.inr (by omega)
        · exact Or.inl (Or.inr h)
        · exact Or.inr (by omega)
    next heq =>
      exact insert_sorted_spec task range hv hs hr hr2 (first_overlap_none task range heq)

theorem separated_ascending (L : RangeList) (hv : entries_valid L) (hs : separated L) :
    ascending L := by
  unfold ascending
  unfold separated at hs
  induction L with
  | nil => exact List.Pairwise.nil
  | cons a rest ih =>
    have hs2 := List.pairwise_cons.mp hs
    have hva := hv a (by simp)
    refine List.Pairwise.cons ?_ (ih (fun r h => hv r (List.mem_cons_of_mem _ h)) hs2.2)
    intro d hd
    have := hs2.1 d hd
    omega


/-! ## Lemmas on `rangelist_remove_range` -/

theorem get_append_mid (P S : RangeList) (c : Range) :
    (P ++ c :: S).get? P.length = some c := by
  induction P with
  | nil => rfl
  | cons a P ih => simpa using ih

theorem get_append_end (P : RangeList) : P.get? P.length = none := by
  simp

theorem set_append_mid (P S : RangeList) (c x : Range) :
    (P ++ c :: S).set P.length x = P ++ x :: S := by
  induction P with
  | nil => rfl
  | cons a P ih => simp [List.set, ih]

theorem remove_loop_end (fuel : Nat) (P : RangeList) (b e : Nat) :
    remove_loop (fuel + 1) P P.length b e = some P := by
  rw [remove_loop, get_append_end]

/-- One loop iteration on an entry that `[b, e]` does not split. -/
theorem remove_loop_step (fuel : Nat) (P S : RangeList) (c : Range) (b e : Nat)
    (hc : c.begin ≤ c.end_) (hc2 : c.end_ ≤ 0xFFFFFFFF) (hbe : b ≤ e) (he : e ≤ 0xFFFFFFFF)
    (hnb : ¬ (c.begin < b ∧ e < c.end_)) :
    remove_loop (fuel + 1) (P ++ c :: S) P.length b e =
      remove_loop fuel (P ++ remove_pieces b e c ++ S)
        (P ++ remove_pieces b e c).length b e := by
  have hov := overlap_iff c ⟨b, e⟩ hc hc2 hbe he
  simp only at hov
  rw [remove_loop, get_append_mid]
  simp only [set_append_mid, todo_remove_at_append]
  unfold remove_pieces
  cases h : range_is_overlap c ⟨b, e⟩
  · have hov2 : ¬ (c.begin ≤ e + 1 ∧ b ≤ c.end_ + 1) := by rw [← hov, h]; simp
    rw [if_pos rfl, if_pos (by omega)]
    simp
  · have hov2 : c.begin ≤ e + 1 ∧ b ≤ c.end_ + 1 := hov.mp h
    rw [if_neg (by simp)]
    split_ifs <;> simp only [] at * <;> first
      | (exfalso; omega)
      | (simp; done)
      | (have h1 : (e + 1) % 4294967296 = e + 1 := by omega
         simp [h1])
      | (have h1 : (b + 4294967295) % 4294967296 = b - 1 := by omega
         simp [h1])

theorem first_overlap_eq_none (task : RangeList) (range : Range)
    (h : ∀ c ∈ task, range_is_overlap c range = false) : first_overlap task range = none := by
  induction task with
  | nil => rfl
  | cons a rest ih =>
    unfold first_overlap
    rw [if_neg (by simp [h a (by simp)]), ih (fun c hc => h c (List.mem_cons_of_mem _ hc))]
    rfl

theorem add_range_no_overlap (task : RangeList) (b e : Nat)
    (h : ∀ c ∈ task, range_is_overlap c ⟨b, e⟩ = false) :
    rangelist_add_range task b e = insert_sorted task ⟨b, e⟩ := by
  unfold rangelist_add_range
  cases task.length with
  | zero => rfl
  | succ n => simp only [add_range_rec, first_overlap_eq_none _ _ h]

theorem insert_sorted_append (P S : RangeList) (r : Range)
    (h : ∀ d ∈ P, d.begin ≤ r.begin) :
    insert_sorted (P ++ S) r = P ++ insert_sorted S r := by
  induction P with
  | nil => rfl
  | cons a P ih =>
    have ha := h a (by simp)
    rw [List.cons_append, insert_sorted, if_neg (by omega),
      ih (fun d hd => h d (List.mem_cons_of_mem _ hd))]
    rfl

theorem insert_sorted_front (S : RangeList) (r : Range)
    (h : ∀ d ∈ S, r.begin < d.begin) : insert_sorted S r = r :: S := by
  cases S with
  | nil => rfl
  | cons a S =>
    simp only [insert_sorted]
    rw [if_pos (h a (by simp))]

theorem separated_append_cons (P S : RangeList) (c : Range) (hs : separated (P ++ c :: S)) :
    (∀ d ∈ P, d.end_ + 1 < c.begin) ∧ (∀ d ∈ S, c.end_ + 1 < d.begin) := by
  unfold separated at hs
  rw [List.pairwise_append] at hs
  obtain ⟨_, h2, h3⟩ := hs
  exact ⟨fun d hd => h3 d hd c (by simp), (List.pairwise_cons.mp h2).1⟩

/-- The three loop iterations spent on an entry that `[b, e]` splits. -/
theorem remove_loop_bisect (fuel : Nat) (P S : RangeList) (c : Range) (b e : Nat)
    (hv : entries_valid (P ++ c :: S)) (hs : separated (P ++ c :: S))
    (hbe : b ≤ e) (hb : c.begin < b) (he : e < c.end_) :
    remove_loop (fuel + 3) (P ++ c :: S) P.length b e =
      remove_loop fuel (P ++ remove_pieces b e c ++ S)
        (P ++ remove_pieces b e c).length b e := by
  have hvc : c.begin ≤ c.end_ ∧ c.end_ ≤ 0xFFFFFFFF := hv c (by simp)
  obtain ⟨hP, hS⟩ := separated_append_cons P S c hs
  have hvP : ∀ d ∈ P, d.begin ≤ d.end_ ∧ d.end_ ≤ 0xFFFFFFFF :=
    fun d hd => hv d (List.mem_append.mpr (Or.inl hd))
  have hvS : ∀ d ∈ S, d.begin ≤ d.end_ ∧ d.end_ ≤ 0xFFFFFFFF :=
    fun d hd => hv d (List.mem_append.mpr (Or.inr (List.mem_cons_of_mem _ hd)))
  have hov : range_is_overlap c ⟨b, e⟩ = true :=
    (overlap_iff c ⟨b, e⟩ hvc.1 hvc.2 hbe (show e ≤ 0xFFFFFFFF by omega)).mpr
      (show c.begin ≤ e + 1 ∧ b ≤ c.end_ + 1 by omega)
  have hpieces : remove_pieces b e c = [⟨c.begin, b - 1⟩, ⟨e + 1, c.end_⟩] := by
    unfold remove_pieces
    rw [if_neg (by omega), if_neg (by omega), if_pos ⟨hb, he⟩]
  have h1 : (e + 1) % 2 ^ 32 = e + 1 := by omega
  have h2 : (b + 2 ^ 32 - 1) % 2 ^ 32 = b - 1 := by omega
  -- the split itself
  have hadd : rangelist_add_range (P ++ ⟨c.begin, b - 1⟩ :: S) (e + 1) c.end_ =
      P ++ ⟨c.begin, b - 1⟩ :: ⟨e + 1, c.end_⟩ :: S := by
    rw [add_range_no_overlap]
    · rw [insert_sorted_append _ _ _ (fun d hd => by
        have := hP d hd
        have := hvP d hd
        show d.begin ≤ e + 1
        omega)]
      rw [insert_sorted, if_neg (show ¬ (e + 1 < c.begin) by omega),
        insert_sorted_front _ _ (fun d hd => by
          have := hS d hd
          show e + 1 < d.begin
          omega)]
    · intro d hd
      have key : ∀ (d : Range), d.begin ≤ d.end_ → d.end_ ≤ 0xFFFFFFFF →
          (d.end_ < e ∨ c.end_ + 1 < d.begin) →
          range_is_overlap d ⟨e + 1, c.end_⟩ = false := by
        intro d hd1 hd2 hd3
        have := overlap_iff d ⟨e + 1, c.end_⟩ hd1 hd2 (show e + 1 ≤ c.end_ by omega) hvc.2
        simp only at this
        cases hh : range_is_overlap d ⟨e + 1, c.end_⟩
        · rfl
        · have := this.mp hh
          omega
      rcases List.mem_append.mp hd with hd | hd
      · have := hP d hd
        exact key d (hvP d hd).1 (hvP d hd).2 (by omega)
      · rcases List.mem_cons.mp hd with rfl | hd
        · exact key _ (show c.begin ≤ b - 1 by omega) (show b - 1 ≤ 0xFFFFFFFF by omega)
            (show b - 1 < e ∨ c.end_ + 1 < c.begin by omega)
        · have := hS d hd
          exact key d (hvS d hd).1 (hvS d hd).2 (by omega)
  have step1 : remove_loop (fuel + 3) (P ++ c :: S) P.length b e =
      remove_loop (fuel + 2) (P ++ ⟨c.begin, b - 1⟩ :: ⟨e + 1, c.end_⟩ :: S) P.length b e := by
    rw [remove_loop, get_append_mid]
    simp only [set_append_mid]
    rw [if_neg (by simp [hov]), if_neg (by omega), if_pos ⟨hb, he⟩, h1, h2, hadd]
  have step2 := remove_loop_step (fuel + 1) P (⟨e + 1, c.end_⟩ :: S) ⟨c.begin, b - 1⟩ b e
    (show c.begin ≤ b - 1 by omega) (show b - 1 ≤ 0xFFFFFFFF by omega) hbe (by omega)
    (show ¬ (c.begin < b ∧ e < b - 1) by omega)
  have hp1 : remove_pieces b e ⟨c.begin, b - 1⟩ = [⟨c.begin, b - 1⟩] := by
    unfold remove_pieces
    rw [if_pos (show e < c.begin ∨ b - 1 < b by omega)]
  have step3 := remove_loop_step fuel (P ++ [⟨c.begin, b - 1⟩]) S ⟨e + 1, c.end_⟩ b e
    (show e + 1 ≤ c.end_ by omega) hvc.2 hbe (by omega)
    (show ¬ (e + 1 < b ∧ e < c.end_) by omega)
  have hp2 : remove_pieces b e ⟨e + 1, c.end_⟩ = [⟨e + 1, c.end_⟩] := by
    unfold remove_pieces
    rw [if_pos (show e < e + 1 ∨ c.end_ < b by omega)]
  rw [hp1] at step2
  rw [hp2] at step3
  rw [step1, step2]
  simp only [List.append_assoc, List.singleton_append, List.cons_append,
    List.nil_append] at step3 ⊢
  rw [step3, hpieces]
  simp

theorem remove_pieces_bounds (b e : Nat) (c : Range) (hc : c.begin ≤ c.end_)
    (hc2 : c.end_ ≤ 0xFFFFFFFF) (hbe : b ≤ e) :
    ∀ d ∈ remove_pieces b e c,
      (d.begin ≤ d.end_ ∧ d.end_ ≤ 0xFFFFFFFF) ∧ c.begin ≤ d.begin ∧ d.end_ ≤ c.end_ := by
  unfold remove_pieces
  intro d hd
  split_ifs at hd <;> simp only [List.mem_cons, List.mem_singleton, List.not_mem_nil,
    or_false] at hd
  · subst hd; omega
  · rcases hd with rfl | rfl <;> (simp only; omega)
  · subst hd; simp only; omega
  · subst hd; simp only; omega

theorem remove_pieces_separated (b e : Nat) (c : Range) (hbe : b ≤ e) :
    separated (remove_pieces b e c) := by
  unfold remove_pieces separated
  split_ifs <;> simp
  omega

theorem remove_pieces_covered (b e : Nat) (c : Range) (x : Nat) :
    covered (remove_pieces b e c) x ↔ (c.begin ≤ x ∧ x ≤ c.end_) ∧ ¬ (b ≤ x ∧ x ≤ e) := by
  unfold remove_pieces covered
  split_ifs <;> simp <;> omega

theorem separated_replace (P Q S : RangeList) (c : Range) (hs : separated (P ++ c :: S))
    (hQ : separated Q) (hb : ∀ d ∈ Q, c.begin ≤ d.begin ∧ d.end_ ≤ c.end_) :
    separated (P ++ Q ++ S) := by
  obtain ⟨hP, hS⟩ := separated_append_cons P S c hs
  unfold separated at *
  rw [List.pairwise_append] at hs
  obtain ⟨h1, h2, h3⟩ := hs
  rw [List.append_assoc, List.pairwise_append]
  refine ⟨h1, ?_, ?_⟩
  · rw [List.pairwise_append]
    refine ⟨hQ, (List.pairwise_cons.mp h2).2, ?_⟩
    intro x hx y hy
    have := hb x hx
    have := hS y hy
    omega
  · intro x hx y hy
    rcases List.mem_append.mp hy with hy | hy
    · have := hb y hy
      have := hP x hx
      omega
    · exact h3 x hx y (List.mem_cons_of_mem _ hy)

theorem entries_valid_replace (P Q S : RangeList) (c : Range)
    (hv : entries_valid (P ++ c :: S))
    (hQ : ∀ d ∈ Q, d.begin ≤ d.end_ ∧ d.end_ ≤ 0xFFFFFFFF) :
    entries_valid (P ++ Q ++ S) := by
  intro r hr
  rcases List.mem_append.mp hr with hr | hr
  · rcases List.mem_append.mp hr with hr | hr
    · exact hv r (List.mem_append.mpr (Or.inl hr))
    · exact hQ r hr
  · exact hv r (List.mem_append.mpr (Or.inr (List.mem_cons_of_mem _ hr)))

/-- With enough fuel the loop, entered at the end of an already processed
prefix `P`, returns `P` followed by the entry-wise subtraction of the rest. -/
theorem remove_loop_refines (b e : Nat) (hbe : b ≤ e) (he : e ≤ 0xFFFFFFFF) (S : RangeList) :
    ∀ (P : RangeList) (fuel : Nat), entries_valid (P ++ S) → separated (P ++ S) →
      3 * S.length + 1 ≤ fuel →
      remove_loop fuel (P ++ S) P.length b e = some (P ++ remove_spec b e S) := by
  induction S with
  | nil =>
    intro P fuel _ _ hf
    obtain ⟨f, rfl⟩ : ∃ f, fuel = f + 1 := ⟨fuel - 1, by simp only [List.length_nil] at hf; omega⟩
    simp only [List.append_nil, remove_spec]
    exact remove_loop_end f P b e
  | cons c S ih =>
    intro P fuel hv hs hf
    simp only [List.length_cons] at hf
    have hvc : c.begin ≤ c.end_ ∧ c.end_ ≤ 0xFFFFFFFF := hv c (by simp)
    have hpb := remove_pieces_bounds b e c hvc.1 hvc.2 hbe
    have hv2 : entries_valid (P ++ remove_pieces b e c ++ S) :=
      entries_valid_replace P _ S c hv (fun d hd => (hpb d hd).1)
    have hs2 : separated (P ++ remove_pieces b e c ++ S) :=
      separated_replace P _ S c hs (remove_pieces_separated b e c hbe)
        (fun d hd => (hpb d hd).2)
    have hres : P ++ remove_spec b e (c :: S) = P ++ remove_pieces b e c ++ remove_spec b e S := by
      simp only [remove_spec, List.append_assoc]
    rw [hres]
    by_cases hbi : c.begin < b ∧ e < c.end_
    · obtain ⟨f, rfl⟩ : ∃ f, fuel = f + 3 := ⟨fuel - 3, by omega⟩
      rw [remove_loop_bisect f P S c b e hv hs hbe hbi.1 hbi.2]
      exact ih _ f hv2 hs2 (by omega)
    · obtain ⟨f, rfl⟩ : ∃ f, fuel = f + 1 := ⟨fuel - 1, by omega⟩
      rw [remove_loop_step f P S c b e hvc.1 hvc.2 hbe he hbi]
      exact ih _ f hv2 hs2 (by omega)

theorem remove_range_eq_spec (L : RangeList) (b e fuel : Nat) (hv : entries_valid L)
    (hs : separated L) (hbe : b ≤ e) (he : e ≤ 0xFFFFFFFF) (hf : 3 * L.length + 1 ≤ fuel) :
    rangelist_remove_range fuel L b e = some (remove_spec b e L) :=
  remove_loop_refines b e hbe he L [] fuel hv hs hf

theorem remove_spec_covered (b e : Nat) (L : RangeList) (x : Nat) :
    covered (remove_spec b e L) x ↔ covered L x ∧ ¬ (b ≤ x ∧ x ≤ e) := by
  induction L with
  | nil => simp [remove_spec, covered]
  | cons c L ih =>
    rw [remove_spec, covered_append, covered_cons, ih, remove_pieces_covered]
    tauto

theorem remove_spec_invariant (b e : Nat) (hbe : b ≤ e) (S : RangeList) :
    ∀ P : RangeList, entries_valid (P ++ S) → separated (P ++ S) →
      entries_valid (P ++ remove_spec b e S) ∧ separated (P ++ remove_spec b e S) := by
  induction S with
  | nil => intro P hv hs; exact ⟨hv, hs⟩
  | cons c S ih =>
    intro P hv hs
    have hvc : c.begin ≤ c.end_ ∧ c.end_ ≤ 0xFFFFFFFF := hv c (by simp)
    have hpb := remove_pieces_bounds b e c hvc.1 hvc.2 hbe
    have := ih (P ++ remove_pieces b e c)
      (entries_valid_replace P _ S c hv (fun d hd => (hpb d hd).1))
      (separated_replace P _ S c hs (remove_pieces_separated b e c hbe)
        (fun d hd => (hpb d hd).2))
    simpa only [remove_spec, List.append_assoc] using this

theorem remove_spec_disjoint (b e : Nat) (L : RangeList)
    (h : ∀ d ∈ L, e < d.begin ∨ d.end_ < b) : remove_spec b e L = L := by
  induction L with
  | nil => rfl
  | cons c L ih =>
    rw [remove_spec, ih (fun d hd => h d (List.mem_cons_of_mem _ hd))]
    unfold remove_pieces
    rw [if_pos (h c (by simp))]
    rfl

theorem remove_spec_append (b e : Nat) (P S : RangeList) :
    remove_spec b e (P ++ S) = remove_spec b e P ++ remove_spec b e S := by
  induction P with
  | nil => rfl
  | cons c P ih => rw [List.cons_append, remove_spec, remove_spec, ih, List.append_assoc]

/-! ## Claims on `rangelist_add_range` and `rangelist_remove_range` -/

/-- C1: for a well-formed list `L` and a 32-bit interval with `begin <= end`,
an integer lies in some entry of `rangelist_add_range(L, begin, end)` exactly
when it lay in some entry of `L` or lies in `[begin, end]`. -/
theorem rangelist_add_range_covers (L : RangeList) (b e : Nat) (hL : well_formed L)
    (hbe : b ≤ e) (he : e ≤ 0xFFFFFFFF) :
    ∀ x, covered (rangelist_add_range L b e) x ↔ covered L x ∨ (b ≤ x ∧ x ≤ e) := by
  obtain ⟨hv, hs⟩ := (well_formed_iff L).mp hL
  exact (add_range_rec_spec L.length L ⟨b, e⟩ (Nat.le_refl _) hv hs hbe he).2.2

/-- Witness of C1 on a list of two entries bridged by the added interval. -/
theorem rangelist_add_range_covers_witness :
    well_formed [⟨10, 20⟩, ⟨30, 40⟩] ∧ 15 ≤ 35 ∧ 35 ≤ 0xFFFFFFFF ∧
      ∀ x, covered (rangelist_add_range [⟨10, 20⟩, ⟨30, 40⟩] 15 35) x ↔
        covered [⟨10, 20⟩, ⟨30, 40⟩] x ∨ (15 ≤ x ∧ x ≤ 35) :=
  ⟨by decide, by decide, by decide,
    rangelist_add_range_covers [⟨10, 20⟩, ⟨30, 40⟩] 15 35 (by decide) (by decide) (by decide)⟩

/-- C2: for a well-formed list `L` and a 32-bit interval with `begin <= end`,
`rangelist_remove_range(L, begin, end)` ends (any fuel from `3 * count + 1` on
gives the same list) and an integer lies in some entry of the result exactly
when it lay in some entry of `L` and does not lie in `[begin, end]`. -/
theorem rangelist_remove_range_covers (L : RangeList) (b e : Nat) (hL : well_formed L)
    (hbe : b ≤ e) (he : e ≤ 0xFFFFFFFF) :
    ∃ R, (∀ fuel, 3 * L.length + 1 ≤ fuel → rangelist_remove_range fuel L b e = some R) ∧
      ∀ x, covered R x ↔ covered L x ∧ ¬ (b ≤ x ∧ x ≤ e) := by
  obtain ⟨hv, hs⟩ := (well_formed_iff L).mp hL
  exact ⟨remove_spec b e L, fun fuel hf => remove_range_eq_spec L b e fuel hv hs hbe he hf,
    remove_spec_covered b e L⟩

/-- Witness of C2: removing the whole 32-bit space from the list that covers
it, where neither `begin - 1` nor `end + 1` may be formed. -/
theorem rangelist_remove_range_covers_witness :
    well_formed [⟨0, 0xFFFFFFFF⟩] ∧ 0 ≤ 0xFFFFFFFF ∧ 0xFFFFFFFF ≤ 0xFFFFFFFF ∧
      ∃ R, (∀ fuel, 3 * [(⟨0, 0xFFFFFFFF⟩ : Range)].length + 1 ≤ fuel →
          rangelist_remove_range fuel [⟨0, 0xFFFFFFFF⟩] 0 0xFFFFFFFF = some R) ∧
        ∀ x, covered R x ↔ covered [⟨0, 0xFFFFFFFF⟩] x ∧ ¬ (0 ≤ x ∧ x ≤ 0xFFFFFFFF) :=
  ⟨by decide, by decide, by decide,
    rangelist_remove_range_covers [⟨0, 0xFFFFFFFF⟩] 0 0xFFFFFFFF
      (by decide) (by decide) (by decide)⟩

/-- C3: `rangelist_add_range` keeps the invariant.  For a well-formed list and
a 32-bit interval with `begin <= end` the result has valid entries, is strictly
ascending by `begin`, and consecutive entries `a`, `b` satisfy
`a.end < 0xFFFFFFFF` and `a.end + 1 < b.begin`. -/
theorem rangelist_add_range_well_formed (L : RangeList) (b e : Nat) (hL : well_formed L)
    (hbe : b ≤ e) (he : e ≤ 0xFFFFFFFF) :
    entries_valid (rangelist_add_range L b e) ∧ ascending (rangelist_add_range L b e) ∧
      gaps_ok (rangelist_add_range L b e) := by
  obtain ⟨hv, hs⟩ := (well_formed_iff L).mp hL
  obtain ⟨r1, r2, _⟩ := add_range_rec_spec L.length L ⟨b, e⟩ (Nat.le_refl _) hv hs hbe he
  exact ⟨r1, separated_ascending _ r1 r2, ((well_formed_iff _).mpr ⟨r1, r2⟩).2⟩

/-- Witness of C3: the added interval bridges three entries and ends at
`0xFFFFFFFF`. -/
theorem rangelist_add_range_well_formed_witness :
    well_formed [⟨10, 20⟩, ⟨30, 40⟩, ⟨50, 60⟩] ∧ 21 ≤ 0xFFFFFFFF ∧ 0xFFFFFFFF ≤ 0xFFFFFFFF ∧
      (entries_valid (rangelist_add_range [⟨10, 20⟩, ⟨30, 40⟩, ⟨50, 60⟩] 21 0xFFFFFFFF) ∧
        ascending (rangelist_add_range [⟨10, 20⟩, ⟨30, 40⟩, ⟨50, 60⟩] 21 0xFFFFFFFF) ∧
        gaps_ok (rangelist_add_range [⟨10, 20⟩, ⟨30, 40⟩, ⟨50, 60⟩] 21 0xFFFFFFFF)) :=
  ⟨by decide, by decide, by decide,
    rangelist_add_range_well_formed [⟨10, 20⟩, ⟨30, 40⟩, ⟨50, 60⟩] 21 0xFFFFFFFF
      (by decide) (by decide) (by decide)⟩

/-- C4: `rangelist_remove_range` keeps the invariant.  For a well-formed list
and a 32-bit interval with `begin <= end` the call ends with a list that has
valid entries, is strictly ascending by `begin` and has a gap between
consecutive entries; and when `[begin, end]` lies strictly inside the entry `c`,
that entry is replaced, in place, by `[c.begin, begin-1]` and `[end+1, c.end]`,
so the entry count grows by exactly one. -/
theorem rangelist_remove_range_well_formed (L : RangeList) (b e : Nat) (hL : well_formed L)
    (hbe : b ≤ e) (he : e ≤ 0xFFFFFFFF) :
    ∃ R, (∀ fuel, 3 * L.length + 1 ≤ fuel → rangelist_remove_range fuel L b e = some R) ∧
      entries_valid R ∧ ascending R ∧ gaps_ok R ∧
      ∀ pre c post, L = pre ++ c :: post → c.begin < b → e < c.end_ →
        R = pre ++ ⟨c.begin, b - 1⟩ :: ⟨e + 1, c.end_⟩ :: post ∧ R.length = L.length + 1 := by
  obtain ⟨hv, hs⟩ := (well_formed_iff L).mp hL
  obtain ⟨r1, r2⟩ := remove_spec_invariant b e hbe L [] hv hs
  simp only [List.nil_append] at r1 r2
  refine ⟨remove_spec b e L, fun fuel hf => remove_range_eq_spec L b e fuel hv hs hbe he hf,
    r1, separated_ascending _ r1 r2, ((well_formed_iff _).mpr ⟨r1, r2⟩).2, ?_⟩
  intro pre c post hL2 hb1 he1
  subst hL2
  obtain ⟨hP, hS⟩ := separated_append_cons pre post c hs
  have hpre : remove_spec b e pre = pre :=
    remove_spec_disjoint b e pre (fun d hd => by have := hP d hd; omega)
  have hpost : remove_spec b e post = post :=
    remove_spec_disjoint b e post (fun d hd => by have := hS d hd; omega)
  have hpieces : remove_pieces b e c = [⟨c.begin, b - 1⟩, ⟨e + 1, c.end_⟩] := by
    unfold remove_pieces
    rw [if_neg (by omega), if_neg (by omega), if_pos ⟨hb1, he1⟩]
  have hR : remove_spec b e (pre ++ c :: post) =
      pre ++ ⟨c.begin, b - 1⟩ :: ⟨e + 1, c.end_⟩ :: post := by
    rw [remove_spec_append, remove_spec, hpre, hpost, hpieces]
    rfl
  refine ⟨hR, ?_⟩
  rw [hR]
  simp only [List.length_append, List.length_cons]
  omega

/-- Witness of C4: an interval strictly inside the first of two entries. -/
theorem rangelist_remove_range_well_formed_witness :
    well_formed [⟨10, 20⟩, ⟨30, 40⟩] ∧ 12 ≤ 15 ∧ 15 ≤ 0xFFFFFFFF ∧
      ∃ R, (∀ fuel, 3 * [(⟨10, 20⟩ : Range), ⟨30, 40⟩].length + 1 ≤ fuel →
          rangelist_remove_range fuel [⟨10, 20⟩, ⟨30, 40⟩] 12 15 = some R) ∧
        entries_valid R ∧ ascending R ∧ gaps_ok R ∧
        ∀ pre c post, [(⟨10, 20⟩ : Range), ⟨30, 40⟩] = pre ++ c :: post → c.begin < 12 →
          15 < c.end_ →
          R = pre ++ ⟨c.begin, 12 - 1⟩ :: ⟨15 + 1, c.end_⟩ :: post ∧
            R.length = [(⟨10, 20⟩ : Range), ⟨30, 40⟩].length + 1 :=
  ⟨by decide, by decide, by decide,
    rangelist_remove_range_well_formed [⟨10, 20⟩, ⟨30, 40⟩] 12 15
      (by decide) (by decide) (by decide)⟩

/-- Scenario 4 of the self-test: four additions that end in one entry. -/
theorem selftest_add_scenario :
    rangelist_add_range (rangelist_add_range (rangelist_add_range
      (rangelist_add_range [] 0x0A000000 0x0A0000FF) 0x0A00010A 0x0A000113)
      0x0A000114 0x0A00011E) 0x0A000000 0x0A00010C = [⟨0x0A000000, 0x0A00011E⟩] := by
  decide

/-- Scenario 5 of the self-test: three removals that change nothing, then two
that trim one address from each edge. -/
theorem selftest_remove_scenario :
    rangelist_remove_range 4 [⟨0x0A000000, 0x0AFFFFFF⟩] 0x09FFFFFF 0x09FFFFFF
        = some [⟨0x0A000000, 0x0AFFFFFF⟩] ∧
      rangelist_remove_range 4 [⟨0x0A000000, 0x0AFFFFFF⟩] 0x0B000000 0x0B00FFFF
        = some [⟨0x0A000000, 0x0AFFFFFF⟩] ∧
      rangelist_remove_range 4 [⟨0x0A000000, 0x0AFFFFFF⟩] 0xC0A80000 0xC0A8FFFF
        = some [⟨0x0A000000, 0x0AFFFFFF⟩] ∧
      rangelist_remove_range 4 [⟨0x0A000000, 0x0AFFFFFF⟩] 0x01000000 0x0A000000
        = some [⟨0x0A000001, 0x0AFFFFFF⟩] ∧
      rangelist_remove_range 4 [⟨0x0A000001, 0x0AFFFFFF⟩] 0x0AFFFFFF 0x0B000000
        = some [⟨0x0A000001, 0x0AFFFFFE⟩] := by
  decide


/-! ## Count and pick -/

theorem size_sum_bound (L : RangeList) :
    ∀ lo, lo ≤ 2^32 → entries_valid L → separated L → (∀ d ∈ L, lo ≤ d.begin) →
      size_sum L + lo ≤ 2^32 := by
  induction L with
  | nil => intro lo hlo _ _ _; simpa [size_sum] using hlo
  | cons a rest ih =>
    intro lo hlo hv hs hge
    have hva := hv a (by simp)
    have hs2 := List.pairwise_cons.mp hs
    have := ih (a.end_ + 1) (by omega) (fun r h => hv r (List.mem_cons_of_mem _ h)) hs2.2
      (fun d hd => by have := hs2.1 d hd; omega)
    have := hge a (by simp)
    simp only [size_sum]
    omega

theorem count_foldl (L : RangeList) :
    ∀ acc, acc + size_sum L < 2^64 → entries_valid L →
      L.foldl (fun result c =>
        (result + ((c.end_ + 2^64 - c.begin) % 2^64 + 1) % 2^64) % 2^64) acc
        = acc + size_sum L := by
  induction L with
  | nil => intro acc _ _; rfl
  | cons a rest ih =>
    intro acc hacc hv
    have hva := hv a (by simp)
    simp only [size_sum] at hacc
    simp only [List.foldl_cons, size_sum]
    have h1 : (acc + ((a.end_ + 2^64 - a.begin) % 2^64 + 1) % 2^64) % 2^64
        = acc + (a.end_ - a.begin + 1) := by omega
    rw [h1, ih _ (by omega) (fun r h => hv r (List.mem_cons_of_mem _ h))]
    omega

theorem covered_card_eq (L : RangeList) (hv : entries_valid L) (hs : separated L) :
    ((Finset.range (2^32)).filter (fun x => covered L x)).card = size_sum L := by
  induction L with
  | nil => simp [covered, size_sum]
  | cons a rest ih =>
    have hva := hv a (by simp)
    have hs2 := List.pairwise_cons.mp hs
    have hrest := ih (fun r h => hv r (List.mem_cons_of_mem _ h)) hs2.2
    have hsplit : (Finset.range (2^32)).filter (fun x => covered (a :: rest) x)
        = Finset.Icc a.begin a.end_ ∪ (Finset.range (2^32)).filter (fun x => covered rest x) := by
      ext x
      simp only [Finset.mem_filter, Finset.mem_range, Finset.mem_union, Finset.mem_Icc,
        covered_cons]
      constructor
      · rintro ⟨hx, h | h⟩
        · exact Or.inl h
        · exact Or.inr ⟨hx, h⟩
      · rintro (h | ⟨hx, h⟩)
        · exact ⟨by omega, Or.inl h⟩
        · exact ⟨hx, Or.inr h⟩
    have hdisj : Disjoint (Finset.Icc a.begin a.end_)
        ((Finset.range (2^32)).filter (fun x => covered rest x)) := by
      rw [Finset.disjoint_left]
      intro x hx hx2
      simp only [Finset.mem_Icc] at hx
      simp only [Finset.mem_filter, Finset.mem_range] at hx2
      obtain ⟨_, d, hd, hd1, hd2⟩ := hx2
      have := hs2.1 d hd
      omega
    rw [hsplit, Finset.card_union_of_disjoint hdisj, hrest, Nat.card_Icc, size_sum]
    omega

/-- C5 (the code departs from the claim): on the well-formed list whose single
entry is `[0, 0xFFFFFFFF]`, which covers `2^32` integers, `rangelist_pick`
reaches its assertion for every index, because the entry size is formed in 32
bits and wraps to 0. -/
theorem rangelist_pick_full_space_fails :
    well_formed [⟨0, 0xFFFFFFFF⟩] ∧ rangelist_count [⟨0, 0xFFFFFFFF⟩] = 4294967296 ∧
      ∀ index, rangelist_pick [⟨0, 0xFFFFFFFF⟩] index = none := by
  refine ⟨by decide, by decide, ?_⟩
  intro index
  simp [rangelist_pick]

/-- C6: for a well-formed list `rangelist_count` is the sum of the entry sizes
`end - begin + 1` over the naturals, which is the number of 32-bit integers the
list covers; it is at most `2^32`; it is `4294967296` for the single entry
`[0, 0xFFFFFFFF]`; and the call leaves the list as it was. -/
theorem rangelist_count_exact (L : RangeList) (hL : well_formed L) :
    rangelist_count L = size_sum L ∧
      rangelist_count L = ((Finset.range (2^32)).filter (fun x => covered L x)).card ∧
      rangelist_count L ≤ 2^32 ∧
      rangelist_count [⟨0, 0xFFFFFFFF⟩] = 4294967296 ∧
      rangelist_count_st L = (rangelist_count L, L) := by
  obtain ⟨hv, hs⟩ := (well_formed_iff L).mp hL
  have hb := size_sum_bound L 0 (by omega) hv hs (fun d _ => Nat.zero_le _)
  have hc : rangelist_count L = size_sum L := by
    unfold rangelist_count
    rw [count_foldl L 0 (by omega) hv]
    omega
  refine ⟨hc, ?_, ?_, by decide, rfl⟩
  · rw [hc, covered_card_eq L hv hs]
  · rw [hc]; omega

/-- Witness of C6 on a list of two entries, the second ending at `0xFFFFFFFF`. -/
theorem rangelist_count_exact_witness :
    well_formed [⟨0, 9⟩, ⟨20, 0xFFFFFFFF⟩] ∧
      (rangelist_count [⟨0, 9⟩, ⟨20, 0xFFFFFFFF⟩] = size_sum [⟨0, 9⟩, ⟨20, 0xFFFFFFFF⟩] ∧
        rangelist_count [⟨0, 9⟩, ⟨20, 0xFFFFFFFF⟩]
          = ((Finset.range (2^32)).filter
              (fun x => covered [⟨0, 9⟩, ⟨20, 0xFFFFFFFF⟩] x)).card ∧
        rangelist_count [⟨0, 9⟩, ⟨20, 0xFFFFFFFF⟩] ≤ 2^32 ∧
        rangelist_count [⟨0, 0xFFFFFFFF⟩] = 4294967296 ∧
        rangelist_count_st [⟨0, 9⟩, ⟨20, 0xFFFFFFFF⟩]
          = (rangelist_count [⟨0, 9⟩, ⟨20, 0xFFFFFFFF⟩], [⟨0, 9⟩, ⟨20, 0xFFFFFFFF⟩])) :=
  ⟨by decide, rangelist_count_exact [⟨0, 9⟩, ⟨20, 0xFFFFFFFF⟩] (by decide)⟩


/-! ## Lemmas on the address parser -/

theorem and_255 (x : Nat) : x &&& 0xFF = x % 256 :=
  Nat.and_pow_two_sub_one_eq_mod x 8

theorem char_at_append (pre rest : List Nat) (c : Nat) :
    char_at (pre ++ c :: rest) pre.length = c := by
  unfold char_at
  induction pre with
  | nil => rfl
  | cons a pre ih => simpa using ih

/-- Value left in `x` by `scan_number` after the digit run `ds`. -/
theorem scan_number_digits (ds : List Nat) :
    ∀ (pre rest line : List Nat) (max fuel offset x : Nat),
      line = pre ++ ds ++ rest → offset = pre.length → max = line.length →
      ds.length ≤ fuel → (∀ c ∈ ds, 48 ≤ c ∧ c ≤ 57) →
      (∀ c r, rest = c :: r → isdigit (c &&& 0xFF) = false) →
      scan_number line max fuel offset x =
        (ds.foldl (fun v c => (v * 10 + (c - 48)) % 2^32) x, offset + ds.length) := by
  induction ds with
  | nil =>
    intro pre rest line max fuel offset x hline hoff hmax _ _ hrest
    cases fuel with
    | zero => rfl
    | succ f =>
      rw [scan_number]
      cases rest with
      | nil =>
        rw [if_neg]
        · rfl
        · simp only [List.append_nil] at hline
          subst hline
          omega
      | cons c r =>
        have hc : char_at line offset = c := by
          rw [hline, hoff, List.append_nil]
          exact char_at_append pre r c
        rw [if_neg]
        · rfl
        · rw [hc, hrest c r rfl]
          simp
  | cons c ds ih =>
    intro pre rest line max fuel offset x hline hoff hmax hfuel hds hrest
    obtain ⟨f, rfl⟩ : ∃ f, fuel = f + 1 :=
      ⟨fuel - 1, by simp only [List.length_cons] at hfuel; omega⟩
    have hc : char_at line offset = c := by
      rw [hline, hoff, List.append_assoc, List.cons_append]
      exact char_at_append pre (ds ++ rest) c
    have hcd := hds c (by simp)
    have hdig : isdigit (c &&& 0xFF) = true := by
      rw [and_255]
      unfold isdigit
      simp only [decide_eq_true_eq]
      omega
    have hlt : offset < max := by
      rw [hmax, hline, hoff]
      simp only [List.length_append, List.length_cons]
      omega
    rw [scan_number, if_pos ⟨hlt, by rw [hc]; exact hdig⟩, hc]
    rw [ih (pre ++ [c]) rest line max f (offset + 1) _ (by rw [hline]; simp)
      (by rw [hoff]; simp) hmax (by simp only [List.length_cons] at hfuel; omega)
      (fun d hd => hds d (List.mem_cons_of_mem _ hd)) hrest]
    simp only [List.foldl_cons, List.length_cons]
    congr 1
    omega

theorem scan_fold_mod (ds : List Nat) :
    ∀ x, ds.foldl (fun v c => (v * 10 + (c - 48)) % 2^32) (x % 2^32)
      = decimal_from x ds % 2^32 := by
  induction ds with
  | nil => intro x; rfl
  | cons c ds ih =>
    intro x
    simp only [List.foldl_cons, decimal_from]
    have h : (x % 2^32 * 10 + (c - 48)) % 2^32 = (x * 10 + (c - 48)) % 2^32 := by omega
    rw [h, ih]
    rfl

theorem scan_fold_zero (ds : List Nat) :
    ds.foldl (fun v c => (v * 10 + (c - 48)) % 2^32) 0 = decimal_value ds % 2^32 :=
  scan_fold_mod ds 0

theorem skip_space_stay (line : List Nat) (max fuel offset : Nat)
    (h : offset ≥ max ∨ isspace (char_at line offset &&& 0xFF) = false) :
    skip_space line max fuel offset = offset := by
  cases fuel with
  | zero => rfl
  | succ f =>
    rw [skip_space, if_neg]
    rintro ⟨h1, h2⟩
    rcases h with h | h
    · omega
    · rw [h] at h2
      cases h2

/-- One iteration of the loop of `parse_ipv4` on a digit run followed by a
dot. -/
theorem parse_ipv4_loop_group (line pre ds tail : List Nat) (max n offset result : Nat)
    (hline : line = pre ++ ds ++ 46 :: tail) (hoff : offset = pre.length)
    (hmax : max = line.length) (hds : ∀ c ∈ ds, 48 ≤ c ∧ c ≤ 57) :
    parse_ipv4_loop line max (n + 1) offset result =
      parse_ipv4_loop line max n (offset + ds.length + 1)
        ((result * 256 + decimal_value ds % 256) % 2^32) := by
  have hlen : line.length = pre.length + ds.length + (tail.length + 1) := by
    rw [hline]; simp only [List.length_append, List.length_cons]
  have hscan := scan_number_digits ds pre (46 :: tail) line max (max - offset) offset 0
    hline hoff hmax (by omega) hds
    (fun c r h => by
      have hc : c = 46 := (List.cons.inj h).1.symm
      subst hc
      decide)
  have hch : char_at line (offset + ds.length) = 46 := by
    have h2 : line = (pre ++ ds) ++ 46 :: tail := hline
    rw [h2, hoff, ← List.length_append]
    exact char_at_append (pre ++ ds) tail 46
  rw [parse_ipv4_loop]
  simp only [hscan, scan_fold_zero, and_255]
  rw [if_neg (by rw [hch]; omega)]
  congr 2
  omega

/-- Last iteration of the loop of `parse_ipv4`: a digit run followed by the
end of the text or by a byte that is neither a digit nor a dot. -/
theorem parse_ipv4_loop_last (line pre ds rest : List Nat) (max n offset result : Nat)
    (hline : line = pre ++ ds ++ rest) (hoff : offset = pre.length)
    (hmax : max = line.length) (hds : ∀ c ∈ ds, 48 ≤ c ∧ c ≤ 57)
    (hrest : ∀ c r, rest = c :: r → isdigit (c &&& 0xFF) = false ∧ c ≠ 46) :
    parse_ipv4_loop line max (n + 1) offset result =
      ((result * 256 + decimal_value ds % 256) % 2^32, offset + ds.length) := by
  have hlen : line.length = pre.length + ds.length + rest.length := by
    rw [hline]; simp only [List.length_append]
  have hscan := scan_number_digits ds pre rest line max (max - offset) offset 0
    hline hoff hmax (by omega) hds (fun c r h => (hrest c r h).1)
  rw [parse_ipv4_loop]
  simp only [hscan, scan_fold_zero, and_255]
  have hstop : offset + ds.length ≥ max ∨ char_at line (offset + ds.length) ≠ 46 := by
    cases rest with
    | nil => left; simp only [List.length_nil] at hlen; omega
    | cons c r =>
      right
      have h2 : line = (pre ++ ds) ++ c :: r := hline
      rw [h2, hoff, ← List.length_append, char_at_append]
      exact (hrest c r rfl).2
  rw [if_pos hstop]
  congr 1
  omega

/-- The function `parse_ipv4` on a dotted quad of four digit runs that starts
at `offset`: every octet is reduced modulo 256 and the offset moves past the
quad. -/
theorem parse_ipv4_dotted (line pre da db dc dd rest : List Nat) (max offset : Nat)
    (hline : line = pre ++ dotted da db dc dd ++ rest) (hoff : offset = pre.length)
    (hmax : max = line.length)
    (ha : ∀ c ∈ da, 48 ≤ c ∧ c ≤ 57) (hb : ∀ c ∈ db, 48 ≤ c ∧ c ≤ 57)
    (hc : ∀ c ∈ dc, 48 ≤ c ∧ c ≤ 57) (hd : ∀ c ∈ dd, 48 ≤ c ∧ c ≤ 57)
    (hrest : ∀ c r, rest = c :: r → isdigit (c &&& 0xFF) = false ∧ c ≠ 46) :
    parse_ipv4 line offset max =
      (quad (decimal_value da % 256) (decimal_value db % 256) (decimal_value dc % 256)
        (decimal_value dd % 256), offset + (dotted da db dc dd).length) := by
  unfold parse_ipv4
  rw [parse_ipv4_loop_group line pre da (db ++ 46 :: (dc ++ 46 :: dd) ++ rest) max 3 offset 0
      (by rw [hline]; simp [dotted]) hoff hmax ha,
    parse_ipv4_loop_group line (pre ++ da ++ [46]) db (dc ++ 46 :: dd ++ rest) max 2 _ _
      (by rw [hline]; simp [dotted]) (by rw [hoff]; simp; omega) hmax hb,
    parse_ipv4_loop_group line (pre ++ da ++ [46] ++ db ++ [46]) dc (dd ++ rest) max 1 _ _
      (by rw [hline]; simp [dotted]) (by rw [hoff]; simp; omega) hmax hc,
    parse_ipv4_loop_last line (pre ++ da ++ [46] ++ db ++ [46] ++ dc ++ [46]) dd rest max 0 _ _
      (by rw [hline]; simp [dotted]) (by rw [hoff]; simp; omega) hmax hd hrest]
  unfold quad dotted
  simp only [List.length_append, List.length_cons]
  congr 1
  · omega
  · omega

theorem strlen_eq_length (line : List Nat) (hnz : ∀ c ∈ line, c ≠ 0)
    (hlen : line.length < 2^32) : strlen line = line.length := by
  unfold strlen
  have h : line.takeWhile (fun c => c != 0) = line := by
    rw [List.takeWhile_eq_self_iff]
    intro c hc
    simpa using hnz c hc
  rw [h]
  omega

theorem dotted_nonzero (da db dc dd : List Nat)
    (ha : ∀ c ∈ da, 48 ≤ c ∧ c ≤ 57) (hb : ∀ c ∈ db, 48 ≤ c ∧ c ≤ 57)
    (hc : ∀ c ∈ dc, 48 ≤ c ∧ c ≤ 57) (hd : ∀ c ∈ dd, 48 ≤ c ∧ c ≤ 57) :
    ∀ c ∈ dotted da db dc dd, c ≠ 0 := by
  intro c hm
  unfold dotted at hm
  simp only [List.mem_append, List.mem_cons] at hm
  rcases hm with h | h | h | h | h | h | h
  · have := ha c h; omega
  · omega
  · have := hb c h; omega
  · omega
  · have := hc c h; omega
  · omega
  · have := hd c h; omega

/-- The leading whitespace loop does not move on a text that starts with a
digit. -/
theorem skip_space_digit (line da tail : List Nat) (max fuel : Nat) (hda : is_digits da)
    (hline : line = da ++ tail) : skip_space line max fuel 0 = 0 := by
  apply skip_space_stay
  right
  obtain ⟨hne, hdig⟩ := hda
  cases da with
  | nil => exact absurd rfl hne
  | cons c da =>
    have hc := hdig c (by simp)
    have hch : char_at line 0 = c := by
      rw [hline]
      exact char_at_append [] (da ++ tail) c
    rw [hch, and_255]
    unfold isspace
    simp only [decide_eq_false_iff_not]
    omega

theorem quad_lt (a b c d : Nat) (ha : a ≤ 255) (hb : b ≤ 255) (hc : c ≤ 255) (hd : d ≤ 255) :
    quad a b c d < 2^32 := by
  unfold quad
  omega

theorem mask_shift (p : Nat) (hp : p ≤ 32) :
    0xFFFFFFFF00000000 >>> p = (2^32 - 1) <<< (32 - p) := by
  interval_cases p <;> rfl

theorem mask_low (p : Nat) (hp : p ≤ 32) :
    (2^64 - 1 - (0xFFFFFFFF00000000 >>> p)) % 2^32 = 2^(32 - p) - 1 := by
  interval_cases p <;> rfl

theorem and_high_mask (A k : Nat) (hA : A < 2^32) :
    A &&& ((2^32 - 1) <<< k) = A - A % 2^k := by
  have key : A &&& ((2^32 - 1) <<< k) = 2^k * (A / 2^k) := by
    apply Nat.eq_of_testBit_eq
    intro i
    rw [Nat.testBit_and, Nat.testBit_shiftLeft, Nat.testBit_two_pow_sub_one,
      Nat.testBit_mul_pow_two, ← Nat.shiftRight_eq_div_pow, Nat.testBit_shiftRight]
    by_cases hik : k ≤ i
    · have h1 : k + (i - k) = i := by omega
      rw [h1]
      by_cases h32 : i - k < 32
      · simp [hik, h32]
      · have h2 : A.testBit i = false := by
          apply Nat.testBit_lt_two_pow
          calc A < 2^32 := hA
            _ ≤ 2^i := Nat.pow_le_pow_right (by omega) (by omega)
        simp [h2]
    · simp [hik]
  rw [key]
  have := Nat.div_add_mod A (2^k)
  omega

theorem or_low_mask (A k : Nat) :
    (A - A % 2^k) ||| (2^k - 1) = A - A % 2^k + 2^k - 1 := by
  have h := Nat.div_add_mod A (2^k)
  have hpos : 0 < 2^k := Nat.two_pow_pos k
  have h2 : A - A % 2^k = 2^k * (A / 2^k) := by omega
  rw [h2, ← Nat.mul_add_lt_is_or (by omega : 2^k - 1 < 2^k)]
  omega

/-! ## Claims on `range_parse_ipv4` -/

/-- C9: on a text made of exactly four non-empty digit runs separated by single
dots, whatever the magnitude of the runs, `range_parse_ipv4` returns
`begin = end = (v1 mod 256)*2^24 + (v2 mod 256)*2^16 + (v3 mod 256)*2^8 + (v4 mod 256)`
and leaves the cursor at the end of the text; `"192.168.1.3"` gives
`0xC0A80103`.  The text is shorter than `2^32` bytes, as its `unsigned` length
requires. -/
theorem range_parse_ipv4_single (da db dc dd : List Nat) (ha : is_digits da)
    (hb : is_digits db) (hc : is_digits dc) (hd : is_digits dd)
    (hlen : (dotted da db dc dd).length < 2^32) :
    range_parse_ipv4 (dotted da db dc dd) none 0 =
        (⟨quad (decimal_value da % 256) (decimal_value db % 256) (decimal_value dc % 256)
            (decimal_value dd % 256),
          quad (decimal_value da % 256) (decimal_value db % 256) (decimal_value dc % 256)
            (decimal_value dd % 256)⟩, (dotted da db dc dd).length) ∧
      range_parse_ipv4 (bytes "192.168.1.3") none 0 = (⟨0xC0A80103, 0xC0A80103⟩, 11) := by
  refine ⟨?_, by decide⟩
  have hnz := dotted_nonzero da db dc dd ha.2 hb.2 hc.2 hd.2
  have hmax := strlen_eq_length _ hnz hlen
  have hparse := parse_ipv4_dotted (dotted da db dc dd) [] da db dc dd [] _ 0
    (by simp) rfl rfl ha.2 hb.2 hc.2 hd.2 (fun c r h => by cases h)
  unfold range_parse_ipv4
  simp only [hmax, skip_space_digit (dotted da db dc dd) da _ _ _ ha rfl, hparse, Nat.zero_add]
  rw [skip_space_stay _ _ _ _ (Or.inl (Nat.le_refl _)), if_pos (Nat.le_refl _)]

/-- Witness of C9: the four runs `"300"`, `"1"`, `"02"`, `"3"`. -/
theorem range_parse_ipv4_single_witness :
    is_digits [51, 48, 48] ∧ is_digits [49] ∧ is_digits [48, 50] ∧ is_digits [51] ∧
      (dotted [51, 48, 48] [49] [48, 50] [51]).length < 2^32 ∧
      (range_parse_ipv4 (dotted [51, 48, 48] [49] [48, 50] [51]) none 0 =
        (⟨quad (decimal_value [51, 48, 48] % 256) (decimal_value [49] % 256)
            (decimal_value [48, 50] % 256) (decimal_value [51] % 256),
          quad (decimal_value [51, 48, 48] % 256) (decimal_value [49] % 256)
            (decimal_value [48, 50] % 256) (decimal_value [51] % 256)⟩,
          (dotted [51, 48, 48] [49] [48, 50] [51]).length) ∧
      range_parse_ipv4 (bytes "192.168.1.3") none 0 = (⟨0xC0A80103, 0xC0A80103⟩, 11)) :=
  ⟨by decide, by decide, by decide, by decide, by decide,
    range_parse_ipv4_single [51, 48, 48] [49] [48, 50] [51]
      (by decide) (by decide) (by decide) (by decide) (by decide)⟩

/-- C8: on a text `A-B` of two dotted quads with octets in `0..255` and values
`a`, `b`, `range_parse_ipv4` returns `[a, b]` when `b >= a` and the sentinel
`[0xFFFFFFFF, 0]` when `b < a`; `"10.0.0.20-10.0.0.30"` gives
`[0x0A000014, 0x0A00001E]`. -/
theorem range_parse_ipv4_dashed (da db dc dd ea eb ec ed : List Nat)
    (ha : is_digits da) (hb : is_digits db) (hc : is_digits dc) (hd : is_digits dd)
    (hea : is_digits ea) (heb : is_digits eb) (hec : is_digits ec) (hed : is_digits ed)
    (va : decimal_value da ≤ 255) (vb : decimal_value db ≤ 255)
    (vc : decimal_value dc ≤ 255) (vd : decimal_value dd ≤ 255)
    (wa : decimal_value ea ≤ 255) (wb : decimal_value eb ≤ 255)
    (wc : decimal_value ec ≤ 255) (wd : decimal_value ed ≤ 255)
    (hlen : (dotted da db dc dd ++ 45 :: dotted ea eb ec ed).length < 2^32) :
    (quad (decimal_value da) (decimal_value db) (decimal_value dc) (decimal_value dd)
        ≤ quad (decimal_value ea) (decimal_value eb) (decimal_value ec) (decimal_value ed) →
      (range_parse_ipv4 (dotted da db dc dd ++ 45 :: dotted ea eb ec ed) none 0).1 =
        ⟨quad (decimal_value da) (decimal_value db) (decimal_value dc) (decimal_value dd),
          quad (decimal_value ea) (decimal_value eb) (decimal_value ec) (decimal_value ed)⟩) ∧
    (quad (decimal_value ea) (decimal_value eb) (decimal_value ec) (decimal_value ed)
        < quad (decimal_value da) (decimal_value db) (decimal_value dc) (decimal_value dd) →
      (range_parse_ipv4 (dotted da db dc dd ++ 45 :: dotted ea eb ec ed) none 0).1 =
        ⟨0xFFFFFFFF, 0x00000000⟩) ∧
    (range_parse_ipv4 (bytes "10.0.0.20-10.0.0.30") none 0).1 = ⟨0x0A000014, 0x0A00001E⟩ := by
  have hnz : ∀ c ∈ dotted da db dc dd ++ 45 :: dotted ea eb ec ed, c ≠ 0 := by
    intro c hm
    rcases List.mem_append.mp hm with h | h
    · exact dotted_nonzero da db dc dd ha.2 hb.2 hc.2 hd.2 c h
    · rcases List.mem_cons.mp h with h | h
      · omega
      · exact dotted_nonzero ea eb ec ed hea.2 heb.2 hec.2 hed.2 c h
  have hmax := strlen_eq_length _ hnz hlen
  have hskip1 := skip_space_digit (dotted da db dc dd ++ 45 :: dotted ea eb ec ed) da
    (46 :: (db ++ 46 :: (dc ++ 46 :: dd)) ++ 45 :: dotted ea eb ec ed)
    (dotted da db dc dd ++ 45 :: dotted ea eb ec ed).length
    ((dotted da db dc dd ++ 45 :: dotted ea eb ec ed).length - 0) ha (by simp [dotted])
  have hparse1 := parse_ipv4_dotted (dotted da db dc dd ++ 45 :: dotted ea eb ec ed) []
    da db dc dd (45 :: dotted ea eb ec ed) _ 0 (by simp) rfl rfl ha.2 hb.2 hc.2 hd.2
    (fun c r h => by
      have hc : c = 45 := (List.cons.inj h).1.symm
      subst hc
      decide)
  have hparse2 := parse_ipv4_dotted (dotted da db dc dd ++ 45 :: dotted ea eb ec ed)
    (dotted da db dc dd ++ [45]) ea eb ec ed [] _ ((dotted da db dc dd).length + 1)
    (by simp) (by simp) rfl hea.2 heb.2 hec.2 hed.2 (fun c r h => by cases h)
  have hch : char_at (dotted da db dc dd ++ 45 :: dotted ea eb ec ed)
      (dotted da db dc dd).length = 45 := char_at_append _ _ 45
  have hskip2 := skip_space_stay (dotted da db dc dd ++ 45 :: dotted ea eb ec ed)
    (dotted da db dc dd ++ 45 :: dotted ea eb ec ed).length
    ((dotted da db dc dd ++ 45 :: dotted ea eb ec ed).length - (dotted da db dc dd).length)
    (dotted da db dc dd).length (Or.inr (by rw [hch]; decide))
  have hlt : ¬ (dotted da db dc dd).length ≥
      (dotted da db dc dd ++ 45 :: dotted ea eb ec ed).length := by
    simp only [List.length_append, List.length_cons]
    omega
  have hres : range_parse_ipv4 (dotted da db dc dd ++ 45 :: dotted ea eb ec ed) none 0 =
      if quad (decimal_value ea % 256) (decimal_value eb % 256) (decimal_value ec % 256)
          (decimal_value ed % 256)
        < quad (decimal_value da % 256) (decimal_value db % 256) (decimal_value dc % 256)
          (decimal_value dd % 256)
      then (⟨0xFFFFFFFF, 0x00000000⟩,
        (dotted da db dc dd).length + 1 + (dotted ea eb ec ed).length)
      else (⟨quad (decimal_value da % 256) (decimal_value db % 256) (decimal_value dc % 256)
          (decimal_value dd % 256),
        quad (decimal_value ea % 256) (decimal_value eb % 256) (decimal_value ec % 256)
          (decimal_value ed % 256)⟩,
        (dotted da db dc dd).length + 1 + (dotted ea eb ec ed).length) := by
    unfold range_parse_ipv4
    simp only [hmax, hskip1, hparse1, Nat.zero_add, hskip2, hch]
    rw [if_neg hlt, if_neg (by decide), if_pos ⟨by omega, trivial⟩, hparse2]
  rw [hres, Nat.mod_eq_of_lt (by omega : decimal_value da < 256),
    Nat.mod_eq_of_lt (by omega : decimal_value db < 256),
    Nat.mod_eq_of_lt (by omega : decimal_value dc < 256),
    Nat.mod_eq_of_lt (by omega : decimal_value dd < 256),
    Nat.mod_eq_of_lt (by omega : decimal_value ea < 256),
    Nat.mod_eq_of_lt (by omega : decimal_value eb < 256),
    Nat.mod_eq_of_lt (by omega : decimal_value ec < 256),
    Nat.mod_eq_of_lt (by omega : decimal_value ed < 256)]
  refine ⟨?_, ?_, by decide⟩
  · intro h
    rw [if_neg (by omega)]
  · intro h
    rw [if_pos h]

/-- Witness of C8: `"1.2.3.4-1.2.3.9"`. -/
theorem range_parse_ipv4_dashed_witness :
    is_digits [49] ∧ is_digits [50] ∧ is_digits [51] ∧ is_digits [52] ∧ is_digits [57] ∧
      decimal_value [49] ≤ 255 ∧ decimal_value [50] ≤ 255 ∧ decimal_value [51] ≤ 255 ∧
      decimal_value [52] ≤ 255 ∧ decimal_value [57] ≤ 255 ∧
      (dotted [49] [50] [51] [52] ++ 45 :: dotted [49] [50] [51] [57]).length < 2^32 ∧
      ((quad (decimal_value [49]) (decimal_value [50]) (decimal_value [51]) (decimal_value [52])
          ≤ quad (decimal_value [49]) (decimal_value [50]) (decimal_value [51])
            (decimal_value [57]) →
        (range_parse_ipv4 (dotted [49] [50] [51] [52] ++ 45 :: dotted [49] [50] [51] [57])
            none 0).1 =
          ⟨quad (decimal_value [49]) (decimal_value [50]) (decimal_value [51])
              (decimal_value [52]),
            quad (decimal_value [49]) (decimal_value [50]) (decimal_value [51])
              (decimal_value [57])⟩) ∧
      (quad (decimal_value [49]) (decimal_value [50]) (decimal_value [51]) (decimal_value [57])
          < quad (decimal_value [49]) (decimal_value [50]) (decimal_value [51])
            (decimal_value [52]) →
        (range_parse_ipv4 (dotted [49] [50] [51] [52] ++ 45 :: dotted [49] [50] [51] [57])
            none 0).1 = ⟨0xFFFFFFFF, 0x00000000⟩) ∧
      (range_parse_ipv4 (bytes "10.0.0.20-10.0.0.30") none 0).1
        = ⟨0x0A000014, 0x0A00001E⟩) :=
  ⟨by decide, by decide, by decide, by decide, by decide, by decide, by decide, by decide,
    by decide, by decide, by decide,
    range_parse_ipv4_dashed [49] [50] [51] [52] [49] [50] [51] [57]
      (by decide) (by decide) (by decide) (by decide) (by decide) (by decide) (by decide)
      (by decide) (by decide) (by decide) (by decide) (by decide) (by decide) (by decide)
      (by decide) (by decide) (by decide)⟩

/-- C7: on a text `a.b.c.d/p` with octets in `0..255`, address value `A` and
prefix length `p <= 32`, `range_parse_ipv4` returns
`begin = A - (A mod 2^(32-p))` and `end = begin + 2^(32-p) - 1`.  Hence
`begin <= A <= end`, `begin` is a multiple of the block size, `/32` gives the
single address and `/0` gives `[0, 0xFFFFFFFF]`; `"10.0.1.2/16"` gives
`[0x0A000000, 0x0A00FFFF]`. -/
theorem range_parse_ipv4_cidr (da db dc dd dp : List Nat)
    (ha : is_digits da) (hb : is_digits db) (hc : is_digits dc) (hd : is_digits dd)
    (hp : is_digits dp)
    (va : decimal_value da ≤ 255) (vb : decimal_value db ≤ 255)
    (vc : decimal_value dc ≤ 255) (vd : decimal_value dd ≤ 255)
    (vp : decimal_value dp ≤ 32)
    (hlen : (dotted da db dc dd ++ 47 :: dp).length < 2^32) :
    (range_parse_ipv4 (dotted da db dc dd ++ 47 :: dp) none 0).1 =
      ⟨quad (decimal_value da) (decimal_value db) (decimal_value dc) (decimal_value dd)
          - quad (decimal_value da) (decimal_value db) (decimal_value dc) (decimal_value dd)
            % 2^(32 - decimal_value dp),
        quad (decimal_value da) (decimal_value db) (decimal_value dc) (decimal_value dd)
          - quad (decimal_value da) (decimal_value db) (decimal_value dc) (decimal_value dd)
            % 2^(32 - decimal_value dp)
          + 2^(32 - decimal_value dp) - 1⟩ ∧
    ((range_parse_ipv4 (dotted da db dc dd ++ 47 :: dp) none 0).1.begin
        ≤ quad (decimal_value da) (decimal_value db) (decimal_value dc) (decimal_value dd) ∧
      quad (decimal_value da) (decimal_value db) (decimal_value dc) (decimal_value dd)
        ≤ (range_parse_ipv4 (dotted da db dc dd ++ 47 :: dp) none 0).1.end_) ∧
    (range_parse_ipv4 (dotted da db dc dd ++ 47 :: dp) none 0).1.begin
      % 2^(32 - decimal_value dp) = 0 ∧
    (decimal_value dp = 32 →
      (range_parse_ipv4 (dotted da db dc dd ++ 47 :: dp) none 0).1 =
        ⟨quad (decimal_value da) (decimal_value db) (decimal_value dc) (decimal_value dd),
          quad (decimal_value da) (decimal_value db) (decimal_value dc) (decimal_value dd)⟩) ∧
    (decimal_value dp = 0 →
      (range_parse_ipv4 (dotted da db dc dd ++ 47 :: dp) none 0).1 = ⟨0, 0xFFFFFFFF⟩) ∧
    (range_parse_ipv4 (bytes "10.0.1.2/16") none 0).1 = ⟨0x0A000000, 0x0A00FFFF⟩ := by
  have hnz : ∀ c ∈ dotted da db dc dd ++ 47 :: dp, c ≠ 0 := by
    intro c hm
    rcases List.mem_append.mp hm with h | h
    · exact dotted_nonzero da db dc dd ha.2 hb.2 hc.2 hd.2 c h
    · rcases List.mem_cons.mp h with h | h
      · omega
      · have := hp.2 c h; omega
  have hmax := strlen_eq_length _ hnz hlen
  have hskip1 := skip_space_digit (dotted da db dc dd ++ 47 :: dp) da
    (46 :: (db ++ 46 :: (dc ++ 46 :: dd)) ++ 47 :: dp)
    (dotted da db dc dd ++ 47 :: dp).length
    ((dotted da db dc dd ++ 47 :: dp).length - 0) ha (by simp [dotted])
  have hparse1 := parse_ipv4_dotted (dotted da db dc dd ++ 47 :: dp) []
    da db dc dd (47 :: dp) _ 0 (by simp) rfl rfl ha.2 hb.2 hc.2 hd.2
    (fun c r h => by
      have hc : c = 47 := (List.cons.inj h).1.symm
      subst hc
      decide)
  have hch : char_at (dotted da db dc dd ++ 47 :: dp) (dotted da db dc dd).length = 47 :=
    char_at_append _ _ 47
  have hskip2 := skip_space_stay (dotted da db dc dd ++ 47 :: dp)
    (dotted da db dc dd ++ 47 :: dp).length
    ((dotted da db dc dd ++ 47 :: dp).length - (dotted da db dc dd).length)
    (dotted da db dc dd).length (Or.inr (by rw [hch]; decide))
  have hlt : ¬ (dotted da db dc dd).length ≥ (dotted da db dc dd ++ 47 :: dp).length := by
    simp only [List.length_append, List.length_cons]
    omega
  have hscan := scan_number_digits dp (dotted da db dc dd ++ [47]) []
    (dotted da db dc dd ++ 47 :: dp) (dotted da db dc dd ++ 47 :: dp).length
    ((dotted da db dc dd ++ 47 :: dp).length - ((dotted da db dc dd).length + 1))
    ((dotted da db dc dd).length + 1) 0 (by simp) (by simp) rfl
    (by simp only [List.length_append, List.length_cons]; omega) hp.2
    (fun c r h => by cases h)
  rw [scan_fold_zero, Nat.mod_eq_of_lt (by omega : decimal_value dp < 2^32)] at hscan
  have hA := quad_lt _ _ _ _ va vb vc vd
  generalize hAdef : quad (decimal_value da) (decimal_value db) (decimal_value dc)
    (decimal_value dd) = A at hA ⊢
  have hres : (range_parse_ipv4 (dotted da db dc dd ++ 47 :: dp) none 0).1 =
      ⟨A - A % 2^(32 - decimal_value dp),
        A - A % 2^(32 - decimal_value dp) + 2^(32 - decimal_value dp) - 1⟩ := by
    unfold range_parse_ipv4
    simp only [hmax, hskip1, hparse1, Nat.zero_add, hskip2, hch]
    rw [if_neg hlt, if_pos trivial]
    simp only [hscan]
    rw [Nat.mod_eq_of_lt (by omega : decimal_value da < 256),
      Nat.mod_eq_of_lt (by omega : decimal_value db < 256),
      Nat.mod_eq_of_lt (by omega : decimal_value dc < 256),
      Nat.mod_eq_of_lt (by omega : decimal_value dd < 256), hAdef,
      mask_low _ vp, mask_shift _ vp, and_high_mask A _ hA,
      Nat.mod_eq_of_lt (lt_of_le_of_lt (Nat.sub_le _ _) hA), or_low_mask]
  have hpos : 0 < 2^(32 - decimal_value dp) := Nat.two_pow_pos _
  have hmod : A % 2^(32 - decimal_value dp) < 2^(32 - decimal_value dp) := Nat.mod_lt _ hpos
  have hle : A % 2^(32 - decimal_value dp) ≤ A := Nat.mod_le _ _
  rw [hres]
  refine ⟨rfl, ⟨?_, ?_⟩, ?_, ?_, ?_, by decide⟩
  · exact Nat.sub_le _ _
  · show A ≤ A - A % 2^(32 - decimal_value dp) + 2^(32 - decimal_value dp) - 1
    omega
  · exact Nat.sub_mod_eq_zero_of_mod_eq (Nat.mod_mod _ _).symm
  · intro h32
    rw [h32]
    simp [Nat.mod_one]
  · intro h0
    rw [h0]
    simp only [Nat.sub_zero, Nat.mod_eq_of_lt hA]
    simp

/-- Witness of C7: the text `"10.0.1.2/16"`, given by its digit runs. -/
theorem range_parse_ipv4_cidr_witness :
    is_digits [49, 48] ∧
    is_digits [48] ∧
    is_digits [49] ∧
    is_digits [50] ∧
    is_digits [49, 54] ∧
    decimal_value [49, 48] ≤ 255 ∧
    decimal_value [48] ≤ 255 ∧
    decimal_value [49] ≤ 255 ∧
    decimal_value [50] ≤ 255 ∧
    decimal_value [49, 54] ≤ 32 ∧
    (dotted [49, 48] [48] [49] [50] ++ 47 :: [49, 54]).length < 2^32 ∧
    ((range_parse_ipv4 (dotted [49, 48] [48] [49] [50] ++ 47 :: [49, 54]) none 0).1 =
      ⟨quad (decimal_value [49, 48]) (decimal_value [48]) (decimal_value [49]) (decimal_value [50])
          - quad (decimal_value [49, 48]) (decimal_value [48]) (decimal_value [49]) (decimal_value [50])
            % 2^(32 - decimal_value [49, 54]),
        quad (decimal_value [49, 48]) (decimal_value [48]) (decimal_value [49]) (decimal_value [50])
          - quad (decimal_value [49, 48]) (decimal_value [48]) (decimal_value [49]) (decimal_value [50])
            % 2^(32 - decimal_value [49, 54])
          + 2^(32 - decimal_value [49, 54]) - 1⟩ ∧
    ((range_parse_ipv4 (dotted [49, 48] [48] [49] [50] ++ 47 :: [49, 54]) none 0).1.begin
        ≤ quad (decimal_value [49, 48]) (decimal_value [48]) (decimal_value [49]) (decimal_value [50]) ∧
      quad (decimal_value [49, 48]) (decimal_value [48]) (decimal_value [49]) (decimal_value [50])
        ≤ (range_parse_ipv4 (dotted [49, 48] [48] [49] [50] ++ 47 :: [49, 54]) none 0).1.end_) ∧
    (range_parse_ipv4 (dotted [49, 48] [48] [49] [50] ++ 47 :: [49, 54]) none 0).1.begin
      % 2^(32 - decimal_value [49, 54]) = 0 ∧
    (decimal_value [49, 54] = 32 →
      (range_parse_ipv4 (dotted [49, 48] [48] [49] [50] ++ 47 :: [49, 54]) none 0).1 =
        ⟨quad (decimal_value [49, 48]) (decimal_value [48]) (decimal_value [49]) (decimal_value [50]),
          quad (decimal_value [49, 48]) (decimal_value [48]) (decimal_value [49]) (decimal_value [50])⟩) ∧
    (decimal_value [49, 54] = 0 →
      (range_parse_ipv4 (dotted [49, 48] [48] [49] [50] ++ 47 :: [49, 54]) none 0).1 = ⟨0, 0xFFFFFFFF⟩) ∧
    (range_parse_ipv4 (bytes "10.0.1.2/16") none 0).1 = ⟨0x0A000000, 0x0A00FFFF⟩) :=
  ⟨by decide, by decide, by decide, by decide, by decide, by decide, by decide, by decide,
    by decide, by decide, by decide,
    range_parse_ipv4_cidr [49, 48] [48] [49] [50] [49, 54]
      (by decide) (by decide) (by decide) (by decide) (by decide) (by decide) (by decide)
      (by decide) (by decide) (by decide) (by decide)⟩


/-! ## Lemmas on the port parser -/

theorem digit_val_digit (c : Nat) (h : 48 ≤ c ∧ c ≤ 57) : digit_val c = some (c - 48) := by
  unfold digit_val
  rw [if_pos h]

theorem strtoul_digits_decimal (ds : List Nat) :
    ∀ (rest : List Nat) (acc n : Nat), (∀ c ∈ ds, 48 ≤ c ∧ c ≤ 57) →
      (∀ c r, rest = c :: r → digit_val c = none) →
      strtoul_digits 10 (ds ++ rest) acc n = (decimal_from acc ds, n + ds.length, rest) := by
  induction ds with
  | nil =>
    intro rest acc n _ hrest
    cases rest with
    | nil => rfl
    | cons c r =>
      simp only [List.nil_append, strtoul_digits, hrest c r rfl]
      rfl
  | cons c ds ih =>
    intro rest acc n hds hrest
    have hc := hds c (by simp)
    rw [List.cons_append, strtoul_digits]
    simp only [digit_val_digit c hc]
    rw [if_pos (by omega), ih rest _ _ (fun d hd => hds d (List.mem_cons_of_mem _ hd)) hrest]
    simp only [decimal_from, List.foldl_cons, List.length_cons]
    congr 2
    omega

theorem cur_cons (c : Nat) (r : List Nat) : cur (c :: r) = c := rfl

theorem cur_of_no_digit (rest : List Nat) (hrest : ∀ c r, rest = c :: r → digit_val c = none) :
    digit_val (cur rest) = none := by
  cases rest with
  | nil => rfl
  | cons c r => exact hrest c r rfl

theorem strtoul_number_numeral (ds rest : List Nat) (hds : is_numeral ds)
    (hrest : ∀ c r, rest = c :: r → digit_val c = none) :
    strtoul_number (ds ++ rest) = (decimal_value ds, ds.length, rest) := by
  obtain ⟨⟨hne, hdig⟩, hlead⟩ := hds
  cases ds with
  | nil => exact absurd rfl hne
  | cons c ds =>
    have hc := hdig c (by simp)
    unfold strtoul_number
    rcases hlead with h48 | hnz
    · -- the numeral "0"
      obtain ⟨rfl, rfl⟩ := List.cons.inj h48
      have hrd := cur_of_no_digit rest hrest
      have hx : ¬ (cur ([48] ++ rest) = 48 ∧
          (cur ([48] ++ rest).tail = 120 ∨ cur ([48] ++ rest).tail = 88) ∧
          is_digit_in 16 (cur ([48] ++ rest).tail.tail) = true) := by
        rintro ⟨_, h | h, _⟩
        · simp only [List.singleton_append, List.tail_cons] at h
          rw [h] at hrd
          cases hrd
        · simp only [List.singleton_append, List.tail_cons] at h
          rw [h] at hrd
          cases hrd
      rw [if_neg hx, if_pos (show cur ([48] ++ rest) = 48 from rfl)]
      simp only [List.singleton_append, strtoul_digits]
      rw [show digit_val 48 = some 0 from rfl]
      simp only
      rw [if_pos (by omega)]
      cases rest with
      | nil => rfl
      | cons c r => simp only [strtoul_digits, hrest c r rfl]; rfl
    · have hc48 : c ≠ 48 := by
        intro h
        apply hnz
        rw [h]
        rfl
      have hcur : cur (c :: ds ++ rest) = c := rfl
      rw [if_neg (by rw [hcur]; exact fun h => hc48 h.1), if_neg (by rw [hcur]; exact hc48),
        strtoul_digits_decimal (c :: ds) rest 0 0 hdig hrest]
      simp only [Nat.zero_add]
      rfl

/-- The model of `strtoul` on a numeral without leading zeros that is followed
by the end of the text or by a byte that is no digit in any base. -/
theorem strtoul_numeral (ds rest : List Nat) (hds : is_numeral ds)
    (hval : decimal_value ds ≤ 2^64 - 1)
    (hrest : ∀ c r, rest = c :: r → digit_val c = none) :
    strtoul (ds ++ rest) = (decimal_value ds, rest) := by
  have hnum := strtoul_number_numeral ds rest hds hrest
  obtain ⟨⟨hne, hdig⟩, _⟩ := hds
  cases ds with
  | nil => exact absurd rfl hne
  | cons c ds =>
    have hc := hdig c (by simp)
    have hdrop : (c :: ds ++ rest).dropWhile (fun c => c != 0 && isspace c) = c :: ds ++ rest := by
      rw [List.cons_append, List.dropWhile_cons_of_neg]
      unfold isspace
      simp only [Bool.and_eq_true, bne_iff_ne, decide_eq_true_eq, not_and]
      omega
    have hcur : cur (c :: ds ++ rest) = c := rfl
    have hs1 : (if c = 45 ∨ c = 43 then (c :: ds ++ rest).tail else c :: ds ++ rest)
        = c :: ds ++ rest := if_neg (by omega)
    unfold strtoul
    simp only [hdrop, hcur, hs1, hnum, List.length_cons]
    rw [if_neg (by omega), if_neg (by omega), if_neg (by omega)]

theorem skip_spaces_digit (c : Nat) (r : List Nat) (hc : 48 ≤ c ∧ c ≤ 57) :
    skip_spaces (c :: r) = c :: r := by
  rw [skip_spaces, if_neg]
  rintro ⟨_, h⟩
  rw [and_255] at h
  unfold isspace at h
  simp only [decide_eq_true_eq] at h
  omega

theorem tail_no_digit (tail : List Nat) (htail : tail = [] ∨ ∃ t, tail = 44 :: t) :
    ∀ c r, tail = c :: r → digit_val c = none := by
  intro c r h
  rcases htail with rfl | ⟨t, rfl⟩
  · cases h
  · obtain ⟨rfl, _⟩ := List.cons.inj h
    rfl

theorem tail_step (tail : List Nat) (htail : tail = [] ∨ ∃ t, tail = 44 :: t) :
    cur tail ≠ 45 ∧ (if cur tail = 44 then tail.tail else tail) = tail.tail := by
  rcases htail with rfl | ⟨t, rfl⟩
  · exact ⟨by decide, rfl⟩
  · exact ⟨by show (44 : Nat) ≠ 45; decide, rfl⟩

/-- One iteration of the loop of `rangelist_parse_ports` on a well-formed item
followed by the end of the text or by a comma. -/
theorem parse_ports_item (fuel : Nat) (L : RangeList) (it : PortItem) (tail : List Nat)
    (hit : item_ok it) (htail : tail = [] ∨ ∃ t, tail = 44 :: t) :
    rangelist_parse_ports (fuel + 1) L (item_text it ++ tail) =
      rangelist_parse_ports fuel (rangelist_add_range L (item_begin it) (item_end it))
        tail.tail := by
  obtain ⟨p, o⟩ := it
  obtain ⟨hp, ho, hle, hmax⟩ := hit
  obtain ⟨hne, hdig⟩ := hp.1
  have hnd := tail_no_digit tail htail
  obtain ⟨ht1, ht2⟩ := tail_step tail htail
  cases p with
  | nil => exact absurd rfl hne
  | cons c p =>
    have hc := hdig c (by simp)
    cases o with
    | none =>
      simp only [item_begin, item_end] at hle hmax ⊢
      have htext : item_text (c :: p, none) ++ tail = c :: (p ++ tail) := rfl
      have hst : strtoul (c :: (p ++ tail)) = (decimal_value (c :: p), tail) :=
        strtoul_numeral (c :: p) tail hp (by omega) hnd
      have hm : decimal_value (c :: p) % 2^32 = decimal_value (c :: p) := by omega
      rw [htext, rangelist_parse_ports]
      simp only [cur_cons, skip_spaces_digit c _ hc, hst, hm]
      rw [if_neg (by omega), if_neg (by omega)]
      simp only [if_neg ht1, hm, ht2]
      rw [if_neg (by omega)]
    | some q =>
      simp only [item_begin, item_end] at hle hmax ⊢
      have hq : is_numeral q := ho
      have htext : item_text (c :: p, some q) ++ tail = c :: (p ++ 45 :: (q ++ tail)) := by
        simp [item_text]
      have hst : strtoul (c :: (p ++ 45 :: (q ++ tail)))
          = (decimal_value (c :: p), 45 :: (q ++ tail)) :=
        strtoul_numeral (c :: p) (45 :: (q ++ tail)) hp (by omega)
          (fun d r h => by
            obtain ⟨rfl, _⟩ := List.cons.inj h
            rfl)
      have hst2 : strtoul (q ++ tail) = (decimal_value q, tail) :=
        strtoul_numeral q tail hq (by omega) hnd
      have hm : decimal_value (c :: p) % 2^32 = decimal_value (c :: p) := by omega
      have hm2 : decimal_value q % 2^32 = decimal_value q := by omega
      rw [htext, rangelist_parse_ports]
      simp only [cur_cons, skip_spaces_digit c _ hc, hst, hm, List.tail_cons, hst2, hm2]
      rw [if_neg (by omega), if_neg (by omega)]
      simp only [if_true, ht2]
      rw [if_neg (by omega), hm2]

theorem ports_text_cons (it it2 : PortItem) (more : List PortItem) :
    ports_text (it :: it2 :: more) = item_text it ++ 44 :: ports_text (it2 :: more) := rfl

/-- The loop of `rangelist_parse_ports` on a list of well-formed items performs
one `rangelist_add_range` per item and ends. -/
theorem parse_ports_items (items : List PortItem) :
    ∀ (L : RangeList) (fuel : Nat), (∀ it ∈ items, item_ok it) → items.length + 1 ≤ fuel →
      rangelist_parse_ports fuel L (ports_text items) = some (add_items L items) := by
  induction items with
  | nil =>
    intro L fuel _ hf
    obtain ⟨f, rfl⟩ : ∃ f, fuel = f + 1 := ⟨fuel - 1, by omega⟩
    rfl
  | cons it more ih =>
    intro L fuel hok hf
    simp only [List.length_cons] at hf
    obtain ⟨f, rfl⟩ : ∃ f, fuel = f + 1 := ⟨fuel - 1, by omega⟩
    have hit := hok it (by simp)
    cases more with
    | nil =>
      have h := parse_ports_item f L it [] hit (Or.inl rfl)
      rw [List.append_nil] at h
      rw [show ports_text [it] = item_text it from rfl, h]
      exact ih _ f (fun _ h => by cases h) (by simp only [List.length_nil]; omega)
    | cons it2 more =>
      rw [ports_text_cons, parse_ports_item f L it _ hit (Or.inr ⟨_, rfl⟩)]
      exact ih _ f (fun x hx => hok x (List.mem_cons_of_mem _ hx)) (by omega)

theorem add_items_spec (items : List PortItem) :
    ∀ L : RangeList, entries_valid L → separated L → (∀ it ∈ items, item_ok it) →
      entries_valid (add_items L items) ∧ separated (add_items L items) ∧
        ∀ x, covered (add_items L items) x ↔
          covered L x ∨ ∃ it ∈ items, item_begin it ≤ x ∧ x ≤ item_end it := by
  induction items with
  | nil =>
    intro L hv hs _
    exact ⟨hv, hs, fun x => by simp [add_items]⟩
  | cons it more ih =>
    intro L hv hs hok
    obtain ⟨_, _, hle, hmax⟩ := hok it (by simp)
    obtain ⟨r1, r2, r3⟩ := add_range_rec_spec L.length L ⟨item_begin it, item_end it⟩
      (Nat.le_refl _) hv hs hle (by show item_end it ≤ 0xFFFFFFFF; omega)
    obtain ⟨q1, q2, q3⟩ := ih (rangelist_add_range L (item_begin it) (item_end it)) r1 r2
      (fun x hx => hok x (List.mem_cons_of_mem _ hx))
    refine ⟨q1, q2, ?_⟩
    intro x
    have h3 := r3 x
    simp only at h3
    have hq := q3 x
    unfold rangelist_add_range at hq
    rw [show add_items L (it :: more)
      = add_items (rangelist_add_range L (item_begin it) (item_end it)) more from rfl, q3 x]
    unfold rangelist_add_range
    rw [h3]
    simp only [List.mem_cons, exists_eq_or_imp]
    tauto

/-! ## Claim on `rangelist_parse_ports` -/

/-- C10: on a comma-separated list of items `p` or `p-q`, written as numerals
without leading zeros with `p <= q <= 65535`, `rangelist_parse_ports` ends and
returns the list obtained from `L` by one `rangelist_add_range` per item, in
order.  From the empty list the result is well-formed, ascending, and covers
exactly the union of the items; `"80,1000-2000,1234,4444"` yields
`[80,80]`, `[1000,2000]`, `[4444,4444]`. -/
theorem rangelist_parse_ports_items (items : List PortItem) (L : RangeList) (fuel : Nat)
    (hok : ∀ it ∈ items, item_ok it) (hf : items.length + 1 ≤ fuel) :
    rangelist_parse_ports fuel L (ports_text items) = some (add_items L items) ∧
      (∃ R, rangelist_parse_ports fuel [] (ports_text items) = some R ∧
        entries_valid R ∧ ascending R ∧ gaps_ok R ∧
        ∀ x, covered R x ↔ ∃ it ∈ items, item_begin it ≤ x ∧ x ≤ item_end it) ∧
      rangelist_parse_ports 5 [] (bytes "80,1000-2000,1234,4444")
        = some [⟨80, 80⟩, ⟨1000, 2000⟩, ⟨4444, 4444⟩] := by
  refine ⟨parse_ports_items items L fuel hok hf, ?_, by decide⟩
  obtain ⟨r1, r2, r3⟩ := add_items_spec items [] (fun _ h => by cases h) List.Pairwise.nil hok
  refine ⟨add_items [] items, parse_ports_items items [] fuel hok hf, r1,
    separated_ascending _ r1 r2, ((well_formed_iff _).mpr ⟨r1, r2⟩).2, ?_⟩
  intro x
  rw [r3 x]
  constructor
  · rintro (h | h)
    · exact absurd h (covered_nil x)
    · exact h
  · exact Or.inr

/-- Witness of C10: the items of `"80,1000-2000,1234,4444"` added to the list
`[70, 90]`. -/
theorem rangelist_parse_ports_items_witness :
    (∀ it ∈ ([([56, 48], none), ([49, 48, 48, 48], some [50, 48, 48, 48]), ([49, 50, 51, 52], none), ([52, 52, 52, 52], none)] : List PortItem), item_ok it) ∧
      ([([56, 48], none), ([49, 48, 48, 48], some [50, 48, 48, 48]), ([49, 50, 51, 52], none), ([52, 52, 52, 52], none)] : List PortItem).length + 1 ≤ 5 ∧
      (rangelist_parse_ports 5 [⟨70, 90⟩] (ports_text [([56, 48], none), ([49, 48, 48, 48], some [50, 48, 48, 48]), ([49, 50, 51, 52], none), ([52, 52, 52, 52], none)])
          = some (add_items [⟨70, 90⟩] [([56, 48], none), ([49, 48, 48, 48], some [50, 48, 48, 48]), ([49, 50, 51, 52], none), ([52, 52, 52, 52], none)]) ∧
        (∃ R, rangelist_parse_ports 5 [] (ports_text [([56, 48], none), ([49, 48, 48, 48], some [50, 48, 48, 48]), ([49, 50, 51, 52], none), ([52, 52, 52, 52], none)]) = some R ∧
          entries_valid R ∧ ascending R ∧ gaps_ok R ∧
          ∀ x, covered R x ↔ ∃ it ∈ ([([56, 48], none), ([49, 48, 48, 48], some [50, 48, 48, 48]), ([49, 50, 51, 52], none), ([52, 52, 52, 52], none)] : List PortItem),
            item_begin it ≤ x ∧ x ≤ item_end it) ∧
        rangelist_parse_ports 5 [] (bytes "80,1000-2000,1234,4444")
          = some [⟨80, 80⟩, ⟨1000, 2000⟩, ⟨4444, 4444⟩]) :=
  ⟨by decide, by decide,
    rangelist_parse_ports_items [([56, 48], none), ([49, 48, 48, 48], some [50, 48, 48, 48]), ([49, 50, 51, 52], none), ([52, 52, 52, 52], none)] [⟨70, 90⟩] 5 (by decide) (by decide)⟩


/-! ## The recursion of `rangelist_add_range` -/

/-- The defining equation of the C function: on an overlap the entry is
merged into the range, removed, and the function calls itself on the shorter
list; otherwise the range is inserted in sorted position. -/
theorem rangelist_add_range_unfold (task : RangeList) (b e : Nat) :
    rangelist_add_range task b e =
      match first_overlap task ⟨b, e⟩ with
      | some (i, c) =>
        rangelist_add_range (todo_remove_at task i)
          (range_combine ⟨b, e⟩ c).begin (range_combine ⟨b, e⟩ c).end_
      | none => insert_sorted task ⟨b, e⟩ := by
  unfold rangelist_add_range
  cases h : first_overlap task ⟨b, e⟩ with
  | none =>
    cases task.length with
    | zero => rfl
    | succ n => simp only [add_range_rec, h]
  | some ic =>
    obtain ⟨i, c⟩ := ic
    obtain ⟨pre, post, rfl, rfl, _⟩ := first_overlap_some task ⟨b, e⟩ i c h
    have hlen : (pre ++ c :: post).length = (pre ++ post).length + 1 := by
      simp only [List.length_append, List.length_cons]
      omega
    rw [hlen]
    simp only [add_range_rec, h, todo_remove_at_append]

/-! ## Rank selection -/

/-- Inside the first entry the covered integers below `x` are those from the
entry's `begin` on. -/
theorem rank_cons_low (c : Range) (rest : RangeList) (x : Nat)
    (hc : c.begin ≤ x ∧ x ≤ c.end_) (hrest : ∀ d ∈ rest, c.end_ + 1 < d.begin) :
    ((Finset.range x).filter (fun y => covered (c :: rest) y)).card = x - c.begin := by
  have hset : (Finset.range x).filter (fun y => covered (c :: rest) y)
      = Finset.Ico c.begin x := by
    ext y
    simp only [Finset.mem_filter, Finset.mem_range, Finset.mem_Ico, covered_cons]
    constructor
    · rintro ⟨hy, h | ⟨d, hd, hd1, _⟩⟩
      · exact ⟨h.1, hy⟩
      · have := hrest d hd
        omega
    · rintro ⟨h1, h2⟩
      exact ⟨h2, Or.inl ⟨h1, by omega⟩⟩
  rw [hset, Nat.card_Ico]

/-- Above the first entry the covered integers below `x` are the whole entry
and those of the rest of the list. -/
theorem rank_cons_high (c : Range) (rest : RangeList) (x : Nat)
    (hc : c.begin ≤ c.end_) (hx : c.end_ < x) (hrest : ∀ d ∈ rest, c.end_ + 1 < d.begin) :
    ((Finset.range x).filter (fun y => covered (c :: rest) y)).card
      = (c.end_ - c.begin + 1) + ((Finset.range x).filter (fun y => covered rest y)).card := by
  have hsplit : (Finset.range x).filter (fun y => covered (c :: rest) y)
      = Finset.Icc c.begin c.end_ ∪ (Finset.range x).filter (fun y => covered rest y) := by
    ext y
    simp only [Finset.mem_filter, Finset.mem_range, Finset.mem_union, Finset.mem_Icc,
      covered_cons]
    constructor
    · rintro ⟨hy, h | h⟩
      · exact Or.inl h
      · exact Or.inr ⟨hy, h⟩
    · rintro (h | ⟨hy, h⟩)
      · exact ⟨by omega, Or.inl h⟩
      · exact ⟨hy, Or.inr h⟩
  have hdisj : Disjoint (Finset.Icc c.begin c.end_)
      ((Finset.range x).filter (fun y => covered rest y)) := by
    rw [Finset.disjoint_left]
    intro y hy hy2
    simp only [Finset.mem_Icc] at hy
    simp only [Finset.mem_filter, Finset.mem_range] at hy2
    obtain ⟨_, d, hd, hd1, _⟩ := hy2
    have := hrest d hd
    omega
  rw [hsplit, Finset.card_union_of_disjoint hdisj, Nat.card_Icc]
  omega

/-- Where the 32-bit entry size does not wrap, that is on every well-formed
list other than the single entry `[0, 0xFFFFFFFF]`, `rangelist_pick` returns
the covered integer with exactly `index` covered integers below it. -/
theorem rangelist_pick_rank (L : RangeList) :
    ∀ index, entries_valid L → separated L → (∀ c ∈ L, c.end_ - c.begin < 0xFFFFFFFF) →
      index < size_sum L →
      ∃ x, rangelist_pick L index = some x ∧ covered L x ∧
        ((Finset.range x).filter (fun y => covered L y)).card = index := by
  induction L with
  | nil => intro index _ _ _ h; simp [size_sum] at h
  | cons c rest ih =>
    intro index hv hs hsz hidx
    have hvc := hv c (by simp)
    have hs2 := List.pairwise_cons.mp hs
    have hszc := hsz c (by simp)
    have hsum := size_sum_bound (c :: rest) 0 (by omega) hv hs (fun d _ => Nat.zero_le _)
    simp only [size_sum] at hidx hsum
    have hrange : ((c.end_ + 2^32 - c.begin) % 2^32 + 1) % 2^32 = c.end_ - c.begin + 1 := by
      omega
    rw [rangelist_pick]
    simp only [hrange]
    by_cases hlt : index < c.end_ - c.begin + 1
    · rw [if_pos hlt]
      have hx : (c.begin + index) % 2^64 % 2^32 = c.begin + index := by omega
      refine ⟨c.begin + index, by rw [hx], ?_, ?_⟩
      · rw [covered_cons]
        exact Or.inl ⟨by omega, by omega⟩
      · rw [rank_cons_low c rest _ ⟨by omega, by omega⟩ hs2.1]
        omega
    · rw [if_neg hlt]
      have hidx2 : (index + 2^64 - (c.end_ - c.begin + 1)) % 2^64
          = index - (c.end_ - c.begin + 1) := by omega
      rw [hidx2]
      obtain ⟨x, hp, hcov, hrank⟩ := ih (index - (c.end_ - c.begin + 1))
        (fun r h => hv r (List.mem_cons_of_mem _ h)) hs2.2
        (fun r h => hsz r (List.mem_cons_of_mem _ h)) (by omega)
      refine ⟨x, hp, ?_, ?_⟩
      · rw [covered_cons]
        exact Or.inr hcov
      · obtain ⟨d, hd, hd1, _⟩ := hcov
        have := hs2.1 d hd
        rw [rank_cons_high c rest x hvc.1 (by omega) hs2.1, hrank]
        omega


/-! ## Removal of an interval that covers nothing, and idempotence -/

theorem disjoint_of_not_covered (L : RangeList) (b e : Nat) (hv : entries_valid L)
    (hbe : b ≤ e) (hdis : ∀ x, b ≤ x → x ≤ e → ¬ covered L x) :
    ∀ d ∈ L, e < d.begin ∨ d.end_ < b := by
  intro d hd
  have hvd := hv d hd
  by_contra hcon
  have h1 : d.begin ≤ e := by omega
  have h2 : b ≤ d.end_ := by omega
  by_cases hb : b ≤ d.begin
  · exact hdis d.begin hb h1 ⟨d, hd, Nat.le_refl _, hvd.1⟩
  · exact hdis b (Nat.le_refl _) hbe ⟨d, hd, by omega, h2⟩

/-- C12: for a well-formed list and a 32-bit interval with `begin <= end` none
of whose integers is covered, `rangelist_remove_range` ends and returns the
list entry for entry, also when the interval touches an entry and the overlap
test answers "overlap". -/
theorem rangelist_remove_range_disjoint (L : RangeList) (b e : Nat) (hL : well_formed L)
    (hbe : b ≤ e) (he : e ≤ 0xFFFFFFFF) (hdis : ∀ x, b ≤ x → x ≤ e → ¬ covered L x) :
    ∀ fuel, 3 * L.length + 1 ≤ fuel → rangelist_remove_range fuel L b e = some L := by
  obtain ⟨hv, hs⟩ := (well_formed_iff L).mp hL
  intro fuel hf
  rw [remove_range_eq_spec L b e fuel hv hs hbe he hf,
    remove_spec_disjoint b e L (disjoint_of_not_covered L b e hv hbe hdis)]

/-- Witness of C12: the interval `[21, 30]` touches the entry `[10, 20]` from
above and `[31, 40]` from below. -/
theorem rangelist_remove_range_disjoint_witness :
    well_formed [⟨10, 20⟩, ⟨31, 40⟩] ∧ 21 ≤ 30 ∧ 30 ≤ 0xFFFFFFFF ∧
      (∀ x, 21 ≤ x → x ≤ 30 → ¬ covered [⟨10, 20⟩, ⟨31, 40⟩] x) ∧
      (range_is_overlap ⟨10, 20⟩ ⟨21, 30⟩ = true ∧ range_is_overlap ⟨31, 40⟩ ⟨21, 30⟩ = true) ∧
      ∀ fuel, 3 * [(⟨10, 20⟩ : Range), ⟨31, 40⟩].length + 1 ≤ fuel →
        rangelist_remove_range fuel [⟨10, 20⟩, ⟨31, 40⟩] 21 30 = some [⟨10, 20⟩, ⟨31, 40⟩] :=
  ⟨by decide, by decide, by decide,
    fun x h1 h2 h => by simp [covered] at h; omega,
    by decide,
    rangelist_remove_range_disjoint [⟨10, 20⟩, ⟨31, 40⟩] 21 30 (by decide) (by decide)
      (by decide) (fun x h1 h2 h => by simp [covered] at h; omega)⟩

/-- C13: removal is idempotent.  For a well-formed list and a 32-bit interval
with `begin <= end` the first removal ends with a list `R`, and removing the
same interval from `R` ends with `R` again. -/
theorem rangelist_remove_range_idempotent (L : RangeList) (b e : Nat) (hL : well_formed L)
    (hbe : b ≤ e) (he : e ≤ 0xFFFFFFFF) :
    ∃ R, (∀ fuel, 3 * L.length + 1 ≤ fuel → rangelist_remove_range fuel L b e = some R) ∧
      (∀ fuel, 3 * R.length + 1 ≤ fuel → rangelist_remove_range fuel R b e = some R) := by
  obtain ⟨hv, hs⟩ := (well_formed_iff L).mp hL
  obtain ⟨r1, r2⟩ := remove_spec_invariant b e hbe L [] hv hs
  simp only [List.nil_append] at r1 r2
  refine ⟨remove_spec b e L, fun fuel hf => remove_range_eq_spec L b e fuel hv hs hbe he hf, ?_⟩
  intro fuel hf
  have hdis : ∀ x, b ≤ x → x ≤ e → ¬ covered (remove_spec b e L) x := by
    intro x h1 h2 h
    exact ((remove_spec_covered b e L x).mp h).2 ⟨h1, h2⟩
  rw [remove_range_eq_spec _ b e fuel r1 r2 hbe he hf,
    remove_spec_disjoint b e _ (disjoint_of_not_covered _ b e r1 hbe hdis)]

/-- Witness of C13: an interval that deletes one entry and trims two. -/
theorem rangelist_remove_range_idempotent_witness :
    well_formed [⟨10, 20⟩, ⟨30, 40⟩, ⟨50, 60⟩] ∧ 15 ≤ 55 ∧ 55 ≤ 0xFFFFFFFF ∧
      ∃ R, (∀ fuel, 3 * [(⟨10, 20⟩ : Range), ⟨30, 40⟩, ⟨50, 60⟩].length + 1 ≤ fuel →
          rangelist_remove_range fuel [⟨10, 20⟩, ⟨30, 40⟩, ⟨50, 60⟩] 15 55 = some R) ∧
        (∀ fuel, 3 * R.length + 1 ≤ fuel → rangelist_remove_range fuel R 15 55 = some R) :=
  ⟨by decide, by decide, by decide,
    rangelist_remove_range_idempotent [⟨10, 20⟩, ⟨30, 40⟩, ⟨50, 60⟩] 15 55
      (by decide) (by decide) (by decide)⟩

/-! ## Pick beyond the count -/

theorem size_sum_nonneg_step (c : Range) (hc : c.begin ≤ c.end_ ∧ c.end_ ≤ 0xFFFFFFFF) :
    ((c.end_ + 2^32 - c.begin) % 2^32 + 1) % 2^32 ≤ c.end_ - c.begin + 1 := by
  omega

theorem pick_none_of_ge (L : RangeList) :
    ∀ index, entries_valid L → size_sum L ≤ index → index < 2^64 →
      rangelist_pick L index = none := by
  induction L with
  | nil => intro index _ _ _; rfl
  | cons c rest ih =>
    intro index hv hidx h64
    have hvc := hv c (by simp)
    have hle := size_sum_nonneg_step c hvc
    simp only [size_sum] at hidx
    rw [rangelist_pick, if_neg (by omega)]
    exact ih _ (fun r h => hv r (List.mem_cons_of_mem _ h)) (by omega) (by omega)

/-- C16: for a well-formed list and a 64-bit index that is at least
`rangelist_count`, `rangelist_pick` returns no value but reaches its "end of
list" assertion; on the empty list this is so for every index. -/
theorem rangelist_pick_out_of_range (L : RangeList) (index : Nat) (hL : well_formed L)
    (hidx : rangelist_count L ≤ index) (h64 : index < 2^64) :
    rangelist_pick L index = none ∧ ∀ i, rangelist_pick [] i = none := by
  obtain ⟨hv, hs⟩ := (well_formed_iff L).mp hL
  have hb := size_sum_bound L 0 (by omega) hv hs (fun d _ => Nat.zero_le _)
  have hc : rangelist_count L = size_sum L := by
    unfold rangelist_count
    rw [count_foldl L 0 (by omega) hv]
    omega
  exact ⟨pick_none_of_ge L index hv (by omega) h64, fun _ => rfl⟩

/-- Witness of C16: the first index past a list that covers 16 integers. -/
theorem rangelist_pick_out_of_range_witness :
    well_formed [⟨0, 9⟩, ⟨20, 25⟩] ∧ rangelist_count [⟨0, 9⟩, ⟨20, 25⟩] ≤ 16 ∧ 16 < 2^64 ∧
      (rangelist_pick [⟨0, 9⟩, ⟨20, 25⟩] 16 = none ∧ ∀ i, rangelist_pick [] i = none) :=
  ⟨by decide, by decide, by decide,
    rangelist_pick_out_of_range [⟨0, 9⟩, ⟨20, 25⟩] 16 (by decide) (by decide) (by decide)⟩

/-! ## The overlap test -/

/-- C17: on two 32-bit intervals with `begin <= end` the overlap test is true
exactly when `max(lhs.begin, rhs.begin) <= min(lhs.end, rhs.end) + 1` over the
naturals, that is when they share an integer or touch; and on any two intervals
the test gives the same answer in both orders. -/
theorem range_is_overlap_spec (lhs rhs : Range) (hl : lhs.begin ≤ lhs.end_)
    (hl2 : lhs.end_ ≤ 0xFFFFFFFF) (hr : rhs.begin ≤ rhs.end_) (hr2 : rhs.end_ ≤ 0xFFFFFFFF) :
    (range_is_overlap lhs rhs = true ↔
        max lhs.begin rhs.begin ≤ min lhs.end_ rhs.end_ + 1) ∧
      ∀ a b : Range, range_is_overlap a b = range_is_overlap b a := by
  constructor
  · rw [overlap_iff lhs rhs hl hl2 hr hr2]
    omega
  · intro a b
    unfold range_is_overlap
    split_ifs <;> rfl

/-- Witness of C17: an interval ending at `0xFFFFFFFF` against one inside it. -/
theorem range_is_overlap_spec_witness :
    (5 : Nat) ≤ 0xFFFFFFFF ∧ (0xFFFFFFFF : Nat) ≤ 0xFFFFFFFF ∧ (7 : Nat) ≤ 9 ∧
      (9 : Nat) ≤ 0xFFFFFFFF ∧
      ((range_is_overlap ⟨5, 0xFFFFFFFF⟩ ⟨7, 9⟩ = true ↔
          max (⟨5, 0xFFFFFFFF⟩ : Range).begin (⟨7, 9⟩ : Range).begin
            ≤ min (⟨5, 0xFFFFFFFF⟩ : Range).end_ (⟨7, 9⟩ : Range).end_ + 1) ∧
        ∀ a b : Range, range_is_overlap a b = range_is_overlap b a) :=
  ⟨by decide, by decide, by decide, by decide,
    range_is_overlap_spec ⟨5, 0xFFFFFFFF⟩ ⟨7, 9⟩ (by decide) (by decide) (by decide)
      (by decide)⟩


/-! ## Termination of `rangelist_add_range` -/

theorem length_insert_sorted (L : RangeList) (range : Range) :
    (insert_sorted L range).length = L.length + 1 := by
  induction L with
  | nil => rfl
  | cons a rest ih =>
    unfold insert_sorted
    split_ifs
    · rfl
    · simp only [List.length_cons, ih]

theorem first_overlap_length (task : RangeList) (range : Range) (i : Nat) (c : Range)
    (h : first_overlap task range = some (i, c)) :
    (todo_remove_at task i).length + 1 = task.length := by
  obtain ⟨pre, post, rfl, rfl, _⟩ := first_overlap_some task range i c h
  rw [todo_remove_at_append]
  simp only [List.length_append, List.length_cons]
  omega

theorem add_range_rec_length (n : Nat) :
    ∀ (task : RangeList) (range : Range),
      (add_range_rec n task range).length ≤ task.length + 1 := by
  induction n with
  | zero =>
    intro task range
    simp only [add_range_rec, length_insert_sorted]
    exact Nat.le_refl _
  | succ n ih =>
    intro task range
    simp only [add_range_rec]
    split
    next i c heq =>
      have := first_overlap_length task range i c heq
      have := ih (todo_remove_at task i) (range_combine range c)
      omega
    next heq =>
      rw [length_insert_sorted]

theorem add_range_fuel_eq (fuel : Nat) :
    ∀ (task : RangeList) (range : Range), task.length < fuel →
      add_range_fuel fuel task range = some (add_range_rec task.length task range) := by
  induction fuel with
  | zero => intro task range h; omega
  | succ fuel ih =>
    intro task range h
    rw [add_range_fuel]
    cases heq : first_overlap task range with
    | none =>
      simp only
      cases task.length with
      | zero => rfl
      | succ n => simp only [add_range_rec, heq]
    | some ic =>
      obtain ⟨i, c⟩ := ic
      have hlen := first_overlap_length task range i c heq
      simp only
      rw [ih _ _ (by omega), ← hlen]
      simp only [add_range_rec, heq]

/-- C20: `rangelist_add_range` returns on every list, well-formed or not, and
for every `begin`, `end`.  A budget of one call more than the entry count
always suffices, because each recursive call is made on a list with exactly one
entry fewer; and the list returned has at most one entry more than the list
passed in. -/
theorem rangelist_add_range_terminates (task : RangeList) (b e fuel : Nat)
    (hf : task.length < fuel) :
    add_range_fuel fuel task ⟨b, e⟩ = some (rangelist_add_range task b e) ∧
      (∀ i c, first_overlap task ⟨b, e⟩ = some (i, c) →
        (todo_remove_at task i).length + 1 = task.length) ∧
      (rangelist_add_range task b e).length ≤ task.length + 1 :=
  ⟨add_range_fuel_eq fuel task ⟨b, e⟩ hf,
    fun i c h => first_overlap_length task ⟨b, e⟩ i c h,
    add_range_rec_length task.length task ⟨b, e⟩⟩

/-- Witness of C20 on a list that is not well-formed: three entries, two of
them inverted, and a budget of four calls. -/
theorem rangelist_add_range_terminates_witness :
    [(⟨9, 3⟩ : Range), ⟨1, 2⟩, ⟨7, 0⟩].length < 4 ∧
      (add_range_fuel 4 [⟨9, 3⟩, ⟨1, 2⟩, ⟨7, 0⟩] ⟨5, 0xFFFFFFFF⟩
          = some (rangelist_add_range [⟨9, 3⟩, ⟨1, 2⟩, ⟨7, 0⟩] 5 0xFFFFFFFF) ∧
        (∀ i c, first_overlap [⟨9, 3⟩, ⟨1, 2⟩, ⟨7, 0⟩] ⟨5, 0xFFFFFFFF⟩ = some (i, c) →
          (todo_remove_at [⟨9, 3⟩, ⟨1, 2⟩, ⟨7, 0⟩] i).length + 1
            = [(⟨9, 3⟩ : Range), ⟨1, 2⟩, ⟨7, 0⟩].length) ∧
        (rangelist_add_range [⟨9, 3⟩, ⟨1, 2⟩, ⟨7, 0⟩] 5 0xFFFFFFFF).length
          ≤ [(⟨9, 3⟩ : Range), ⟨1, 2⟩, ⟨7, 0⟩].length + 1) :=
  ⟨by decide, rangelist_add_range_terminates [⟨9, 3⟩, ⟨1, 2⟩, ⟨7, 0⟩] 5 0xFFFFFFFF 4 (by decide)⟩

/-! ## The sentinel interval `[0xFFFFFFFF, 0]` -/

theorem overlap_sentinel (c : Range) (hc2 : c.end_ ≤ 0xFFFFFFFF) (hc : c.begin ≤ c.end_) :
    range_is_overlap c ⟨0xFFFFFFFF, 0⟩ = true := by
  unfold range_is_overlap
  split_ifs <;> first | rfl | (exfalso; simp only at *; omega)

theorem combine_sentinel (c : Range) (hc2 : c.end_ ≤ 0xFFFFFFFF) (hc : c.begin ≤ c.end_) :
    range_combine ⟨0xFFFFFFFF, 0⟩ c = c := by
  have h1 := combine_begin ⟨0xFFFFFFFF, 0⟩ c
  have h2 := combine_end ⟨0xFFFFFFFF, 0⟩ c
  generalize range_combine ⟨0xFFFFFFFF, 0⟩ c = r at h1 h2
  cases r with
  | mk rb re =>
    cases c with
    | mk cb ce =>
      simp only at h1 h2 hc hc2
      rw [Range.mk.injEq]
      omega

theorem no_overlap_of_separated (c : Range) (rest : RangeList)
    (hv : entries_valid (c :: rest)) (hs : separated (c :: rest)) :
    ∀ d ∈ rest, range_is_overlap d c = false := by
  intro d hd
  have hvc := hv c (by simp)
  have hvd := hv d (List.mem_cons_of_mem _ hd)
  have hgap := (List.pairwise_cons.mp hs).1 d hd
  cases h : range_is_overlap d c
  · rfl
  · have := (overlap_iff d c hvd.1 hvd.2 hvc.1 hvc.2).mp h
    omega

theorem add_sentinel_nonempty (c : Range) (rest : RangeList)
    (hv : entries_valid (c :: rest)) (hs : separated (c :: rest)) :
    rangelist_add_range (c :: rest) 0xFFFFFFFF 0 = c :: rest := by
  have hvc := hv c (by simp)
  have hfirst : first_overlap (c :: rest) ⟨0xFFFFFFFF, 0⟩ = some (0, c) := by
    rw [first_overlap, if_pos (overlap_sentinel c hvc.2 hvc.1)]
  rw [rangelist_add_range_unfold, hfirst]
  simp only [combine_sentinel c hvc.2 hvc.1]
  have hrm : todo_remove_at (c :: rest) 0 = rest := rfl
  rw [hrm, add_range_no_overlap rest c.begin c.end_ (no_overlap_of_separated c rest hv hs)]
  exact insert_sorted_front rest c (fun d hd => by
    have := (List.pairwise_cons.mp hs).1 d hd
    omega)

/-- C15, as the code has it: on every non-empty well-formed list
`rangelist_add_range(L, 0xFFFFFFFF, 0)` leaves the entries unchanged, so the
result is well-formed and `rangelist_count` is unchanged. -/
theorem rangelist_add_range_sentinel (L : RangeList) (hL : well_formed L) (hne : L ≠ []) :
    rangelist_add_range L 0xFFFFFFFF 0x00000000 = L ∧
      well_formed (rangelist_add_range L 0xFFFFFFFF 0x00000000) ∧
      rangelist_count (rangelist_add_range L 0xFFFFFFFF 0x00000000) = rangelist_count L := by
  obtain ⟨hv, hs⟩ := (well_formed_iff L).mp hL
  cases L with
  | nil => exact absurd rfl hne
  | cons c rest =>
    have h := add_sentinel_nonempty c rest hv hs
    rw [h]
    exact ⟨rfl, hL, rfl⟩

/-- Witness of C15 as amended: a list of two entries, the second ending at
`0xFFFFFFFF`. -/
theorem rangelist_add_range_sentinel_witness :
    well_formed [⟨0, 0⟩, ⟨7, 0xFFFFFFFF⟩] ∧ [(⟨0, 0⟩ : Range), ⟨7, 0xFFFFFFFF⟩] ≠ [] ∧
      (rangelist_add_range [⟨0, 0⟩, ⟨7, 0xFFFFFFFF⟩] 0xFFFFFFFF 0x00000000
          = [⟨0, 0⟩, ⟨7, 0xFFFFFFFF⟩] ∧
        well_formed (rangelist_add_range [⟨0, 0⟩, ⟨7, 0xFFFFFFFF⟩] 0xFFFFFFFF 0x00000000) ∧
        rangelist_count (rangelist_add_range [⟨0, 0⟩, ⟨7, 0xFFFFFFFF⟩] 0xFFFFFFFF 0x00000000)
          = rangelist_count [⟨0, 0⟩, ⟨7, 0xFFFFFFFF⟩]) :=
  ⟨by decide, by decide,
    rangelist_add_range_sentinel [⟨0, 0⟩, ⟨7, 0xFFFFFFFF⟩] (by decide) (by decide)⟩

/-- C15 fails as stated on the empty list, which is well-formed: adding the
sentinel stores the entry `[0xFFFFFFFF, 0]`, the result is not well-formed and
the count changes from 0 to `2^64 - 2^32 + 2`. -/
theorem rangelist_add_range_sentinel_empty :
    well_formed ([] : RangeList) ∧
      rangelist_add_range [] 0xFFFFFFFF 0x00000000 = [⟨0xFFFFFFFF, 0x00000000⟩] ∧
      rangelist_add_range [] 0xFFFFFFFF 0x00000000 ≠ [] ∧
      ¬ well_formed (rangelist_add_range [] 0xFFFFFFFF 0x00000000) ∧
      rangelist_count [] = 0 ∧
      rangelist_count (rangelist_add_range [] 0xFFFFFFFF 0x00000000) = 18446744069414584322 := by
  decide


/-! ## Loops that do not end -/

/-- One iteration of the removal loop with the sentinel on the entry
`[1, 0xFFFFFFFE]` gives back the same list at the same index. -/
theorem remove_sentinel_step (fuel : Nat) :
    remove_loop (fuel + 1) [⟨1, 0xFFFFFFFE⟩] 0 0xFFFFFFFF 0 =
      remove_loop fuel [⟨1, 0xFFFFFFFE⟩] 0 0xFFFFFFFF 0 := by
  rfl

theorem remove_sentinel_stuck (fuel : Nat) :
    remove_loop fuel [⟨1, 0xFFFFFFFE⟩] 0 0xFFFFFFFF 0 = none := by
  induction fuel with
  | zero => rfl
  | succ f ih => rw [remove_sentinel_step, ih]

/-- C18 (the code departs from the claim): on the well-formed list `[[10, 20]]`
`rangelist_remove_range(L, 0xFFFFFFFF, 0)` never leaves its loop.  The first
iteration takes the "bisect" branch and turns the entry into `[1, 0xFFFFFFFE]`;
every later iteration takes it again and leaves list and index as they are. -/
theorem rangelist_remove_range_sentinel_loops :
    well_formed [⟨10, 20⟩] ∧
      (∀ fuel, rangelist_remove_range fuel [⟨10, 20⟩] 0xFFFFFFFF 0x00000000 = none) ∧
      (∀ fuel, remove_loop (fuel + 1) [⟨10, 20⟩] 0 0xFFFFFFFF 0x00000000 =
        remove_loop fuel [⟨1, 0xFFFFFFFE⟩] 0 0xFFFFFFFF 0x00000000) := by
  refine ⟨by decide, ?_, fun fuel => rfl⟩
  intro fuel
  cases fuel with
  | zero => rfl
  | succ f =>
    have h : rangelist_remove_range (f + 1) [⟨10, 20⟩] 0xFFFFFFFF 0x00000000 =
        remove_loop f [⟨1, 0xFFFFFFFE⟩] 0 0xFFFFFFFF 0 := rfl
    rw [h, remove_sentinel_stuck]

/-- One iteration of the port loop on the text `"a"`: `strtoul` reads nothing,
port 0 is added and the text position stays where it was. -/
theorem parse_ports_letter_step (fuel : Nat) (L : RangeList) :
    rangelist_parse_ports (fuel + 1) L (bytes "a") =
      rangelist_parse_ports fuel (rangelist_add_range L 0 0) (bytes "a") := by
  rfl

/-- C19 (the code departs from the claim): on the text `"a"`
`rangelist_parse_ports` never leaves its loop, whatever the list: each
iteration adds port 0 and leaves the text position on the letter. -/
theorem rangelist_parse_ports_loops :
    (∀ fuel L, rangelist_parse_ports fuel L (bytes "a") = none) ∧
      strtoul (bytes "a") = (0, bytes "a") := by
  refine ⟨?_, by decide⟩
  intro fuel
  induction fuel with
  | zero => intro L; rfl
  | succ f ih =>
    intro L
    rw [parse_ports_letter_step, ih]

/-- C11 (the code departs from the claim): in `"80,4294967376,443"` the second
item has the value `2^32 + 80 > 65535`, yet parsing does not stop there: the
value is stored in an `unsigned`, becomes 80 and passes the check, and the
third item is parsed as well.  The claim's own example stops as it says. -/
theorem rangelist_parse_ports_wraps :
    rangelist_parse_ports 4 [] (bytes "80,4294967376,443") = some [⟨80, 80⟩, ⟨443, 443⟩] ∧
      rangelist_parse_ports 4 [] (bytes "80") = some [⟨80, 80⟩] ∧
      rangelist_parse_ports 4 [] (bytes "80,70000,443") = some [⟨80, 80⟩] := by
  decide


/-! ## Two well-formed lists that cover the same integers are equal -/

theorem covered_ge_head (a : Range) (r : RangeList) (hv : entries_valid (a :: r))
    (hs : separated (a :: r)) (x : Nat) (hx : covered (a :: r) x) : a.begin ≤ x := by
  have hva := hv a (by simp)
  rcases (covered_cons a r x).mp hx with h | ⟨d, hd, hd1, _⟩
  · exact h.1
  · have := (List.pairwise_cons.mp hs).1 d hd
    omega

theorem covered_tail_gt (a : Range) (r : RangeList) (hs : separated (a :: r)) (x : Nat)
    (hx : covered r x) : a.end_ + 1 < x := by
  obtain ⟨d, hd, hd1, _⟩ := hx
  have := (List.pairwise_cons.mp hs).1 d hd
  omega

theorem covered_unique (L1 : RangeList) :
    ∀ L2 : RangeList, entries_valid L1 → separated L1 → entries_valid L2 → separated L2 →
      (∀ x, covered L1 x ↔ covered L2 x) → L1 = L2 := by
  induction L1 with
  | nil =>
    intro L2 _ _ hv2 _ h
    cases L2 with
    | nil => rfl
    | cons a r =>
      have hva := hv2 a (by simp)
      exact absurd ((h a.begin).mpr ⟨a, by simp, Nat.le_refl _, hva.1⟩) (covered_nil _)
  | cons a r1 ih =>
    intro L2 hv1 hs1 hv2 hs2 h
    have hva := hv1 a (by simp)
    cases L2 with
    | nil =>
      exact absurd ((h a.begin).mp ⟨a, by simp, Nat.le_refl _, hva.1⟩) (covered_nil _)
    | cons a2 r2 =>
      have hva2 := hv2 a2 (by simp)
      have hin1 : ∀ x, a.begin ≤ x → x ≤ a.end_ → covered (a :: r1) x :=
        fun x h1 h2 => ⟨a, by simp, h1, h2⟩
      have hin2 : ∀ x, a2.begin ≤ x → x ≤ a2.end_ → covered (a2 :: r2) x :=
        fun x h1 h2 => ⟨a2, by simp, h1, h2⟩
      have hb1 : a2.begin ≤ a.begin :=
        covered_ge_head a2 r2 hv2 hs2 _ ((h _).mp (hin1 _ (Nat.le_refl _) hva.1))
      have hb2 : a.begin ≤ a2.begin :=
        covered_ge_head a r1 hv1 hs1 _ ((h _).mpr (hin2 _ (Nat.le_refl _) hva2.1))
      have he1 : ¬ a.end_ < a2.end_ := by
        intro hlt
        have hc := (h (a.end_ + 1)).mpr (hin2 _ (by omega) (by omega))
        rcases (covered_cons a r1 _).mp hc with h' | h'
        · omega
        · have := covered_tail_gt a r1 hs1 _ h'
          omega
      have he2 : ¬ a2.end_ < a.end_ := by
        intro hlt
        have hc := (h (a2.end_ + 1)).mp (hin1 _ (by omega) (by omega))
        rcases (covered_cons a2 r2 _).mp hc with h' | h'
        · omega
        · have := covered_tail_gt a2 r2 hs2 _ h'
          omega
      have haa : a = a2 := by
        cases a with
        | mk ab ae =>
          cases a2 with
          | mk ab2 ae2 =>
            simp only at hb1 hb2 he1 he2
            rw [Range.mk.injEq]
            omega
      subst haa
      have hrest : ∀ x, covered r1 x ↔ covered r2 x := by
        intro x
        constructor
        · intro hx
          have hgt := covered_tail_gt a r1 hs1 x hx
          rcases (covered_cons a r2 x).mp ((h x).mp ((covered_cons a r1 x).mpr (Or.inr hx)))
            with h' | h'
          · omega
          · exact h'
        · intro hx
          have hgt := covered_tail_gt a r2 hs2 x hx
          rcases (covered_cons a r1 x).mp ((h x).mpr ((covered_cons a r2 x).mpr (Or.inr hx)))
            with h' | h'
          · omega
          · exact h'
      rw [ih r2 (fun r hr => hv1 r (List.mem_cons_of_mem _ hr)) (List.pairwise_cons.mp hs1).2
        (fun r hr => hv2 r (List.mem_cons_of_mem _ hr)) (List.pairwise_cons.mp hs2).2 hrest]

/-- C14: for a well-formed list and a 32-bit interval with `begin <= end`,
adding the interval and then removing it ends with a list that is `L`, entry
for entry, exactly when no integer of the interval was covered by `L`. -/
theorem rangelist_add_remove_round_trip (L : RangeList) (b e : Nat) (hL : well_formed L)
    (hbe : b ≤ e) (he : e ≤ 0xFFFFFFFF) :
    ∃ R, (∀ fuel, 3 * (L.length + 1) + 1 ≤ fuel →
        rangelist_remove_range fuel (rangelist_add_range L b e) b e = some R) ∧
      (R = L ↔ ∀ x, b ≤ x → x ≤ e → ¬ covered L x) := by
  obtain ⟨hv, hs⟩ := (well_formed_iff L).mp hL
  obtain ⟨a1, a2, a3⟩ := add_range_rec_spec L.length L ⟨b, e⟩ (Nat.le_refl _) hv hs hbe he
  have alen := add_range_rec_length L.length L ⟨b, e⟩
  obtain ⟨r1, r2⟩ := remove_spec_invariant b e hbe (rangelist_add_range L b e) [] a1 a2
  simp only [List.nil_append] at r1 r2
  have hcov : ∀ x, covered (remove_spec b e (rangelist_add_range L b e)) x ↔
      covered L x ∧ ¬ (b ≤ x ∧ x ≤ e) := by
    intro x
    have h3 := a3 x
    simp only at h3
    rw [remove_spec_covered]
    unfold rangelist_add_range
    rw [h3]
    tauto
  refine ⟨remove_spec b e (rangelist_add_range L b e), ?_, ?_⟩
  · intro fuel hf
    exact remove_range_eq_spec _ b e fuel a1 a2 hbe he (by
      unfold rangelist_add_range
      omega)
  · constructor
    · intro hR x h1 h2 hx
      rw [← hR] at hx
      exact ((hcov x).mp hx).2 ⟨h1, h2⟩
    · intro hdis
      apply covered_unique _ L r1 r2 hv hs
      intro x
      rw [hcov]
      constructor
      · exact fun h => h.1
      · exact fun h => ⟨h, fun hin => hdis x hin.1 hin.2 h⟩

/-- Witness of C14: `[21, 29]` touches `[10, 20]` and `[30, 40]`, so the
addition merges all three into one entry. -/
theorem rangelist_add_remove_round_trip_witness :
    well_formed [⟨10, 20⟩, ⟨30, 40⟩] ∧ 21 ≤ 29 ∧ 29 ≤ 0xFFFFFFFF ∧
      rangelist_add_range [⟨10, 20⟩, ⟨30, 40⟩] 21 29 = [⟨10, 40⟩] ∧
      ∃ R, (∀ fuel, 3 * ([(⟨10, 20⟩ : Range), ⟨30, 40⟩].length + 1) + 1 ≤ fuel →
          rangelist_remove_range fuel (rangelist_add_range [⟨10, 20⟩, ⟨30, 40⟩] 21 29) 21 29
            = some R) ∧
        (R = [⟨10, 20⟩, ⟨30, 40⟩] ↔
          ∀ x, 21 ≤ x → x ≤ 29 → ¬ covered [⟨10, 20⟩, ⟨30, 40⟩] x) :=
  ⟨by decide, by decide, by decide, by decide,
    rangelist_add_remove_round_trip [⟨10, 20⟩, ⟨30, 40⟩] 21 29
      (by decide) (by decide) (by decide)⟩


/-! ## Where `rangelist_parse_ports` does stop at an invalid item -/

/-- One iteration of the loop of `rangelist_parse_ports` on an invalid item
whose values fit an `unsigned`: the loop ends and the list is as it was. -/
theorem parse_ports_bad_item (fuel : Nat) (L : RangeList) (it : PortItem) (tail : List Nat)
    (hit : item_bad it) (htail : tail = [] ∨ ∃ t, tail = 44 :: t) :
    rangelist_parse_ports (fuel + 1) L (item_text it ++ tail) = some L := by
  obtain ⟨p, o⟩ := it
  obtain ⟨hp, ho, hb32, he32, hbad⟩ := hit
  obtain ⟨hne, hdig⟩ := hp.1
  have hnd := tail_no_digit tail htail
  obtain ⟨ht1, ht2⟩ := tail_step tail htail
  cases p with
  | nil => exact absurd rfl hne
  | cons c p =>
    have hc := hdig c (by simp)
    cases o with
    | none =>
      simp only [item_begin, item_end] at hb32 he32 hbad
      have htext : item_text (c :: p, none) ++ tail = c :: (p ++ tail) := rfl
      have hst : strtoul (c :: (p ++ tail)) = (decimal_value (c :: p), tail) :=
        strtoul_numeral (c :: p) tail hp (by omega) hnd
      have hm : decimal_value (c :: p) % 2^32 = decimal_value (c :: p) := by omega
      rw [htext, rangelist_parse_ports]
      simp only [cur_cons, skip_spaces_digit c _ hc, hst, hm]
      rw [if_neg (by omega), if_neg (by omega)]
      simp only [if_neg ht1, hm, ht2]
      rw [if_pos (by omega)]
    | some q =>
      simp only [item_begin, item_end] at hb32 he32 hbad
      have hq : is_numeral q := ho
      have htext : item_text (c :: p, some q) ++ tail = c :: (p ++ 45 :: (q ++ tail)) := by
        simp [item_text]
      have hst : strtoul (c :: (p ++ 45 :: (q ++ tail)))
          = (decimal_value (c :: p), 45 :: (q ++ tail)) :=
        strtoul_numeral (c :: p) (45 :: (q ++ tail)) hp (by omega)
          (fun d r h => by
            obtain ⟨rfl, _⟩ := List.cons.inj h
            rfl)
      have hst2 : strtoul (q ++ tail) = (decimal_value q, tail) :=
        strtoul_numeral q tail hq (by omega) hnd
      have hm : decimal_value (c :: p) % 2^32 = decimal_value (c :: p) := by omega
      have hm2 : decimal_value q % 2^32 = decimal_value q := by omega
      rw [htext, rangelist_parse_ports]
      simp only [cur_cons, skip_spaces_digit c _ hc, hst, hm, List.tail_cons, hst2, hm2]
      rw [if_neg (by omega), if_neg (by omega)]
      simp only [if_true, ht2]
      rw [if_pos (by omega)]

theorem ports_text_cons_tail (it : PortItem) (more : List PortItem) :
    ∃ tail, ports_text (it :: more) = item_text it ++ tail ∧
      (tail = [] ∨ ∃ t, tail = 44 :: t) := by
  cases more with
  | nil => exact ⟨[], (List.append_nil _).symm, Or.inl rfl⟩
  | cons it2 more => exact ⟨44 :: ports_text (it2 :: more), rfl, Or.inr ⟨_, rfl⟩⟩

/-- Where every value fits an `unsigned`, the loop stops at the first invalid
item: the items before it are added, the invalid item and all later ones add
nothing. -/
theorem parse_ports_stops (good : List PortItem) :
    ∀ (L : RangeList) (bad : PortItem) (rest : List PortItem) (fuel : Nat),
      (∀ it ∈ good, item_ok it) → item_bad bad → good.length + 1 ≤ fuel →
      rangelist_parse_ports fuel L (ports_text (good ++ bad :: rest))
        = some (add_items L good) := by
  induction good with
  | nil =>
    intro L bad rest fuel _ hbad hf
    obtain ⟨f, rfl⟩ : ∃ f, fuel = f + 1 := ⟨fuel - 1, by omega⟩
    obtain ⟨tail, htext, htail⟩ := ports_text_cons_tail bad rest
    rw [List.nil_append, htext, parse_ports_bad_item f L bad tail hbad htail]
    rfl
  | cons g gs ih =>
    intro L bad rest fuel hok hbad hf
    simp only [List.length_cons] at hf
    obtain ⟨f, rfl⟩ : ∃ f, fuel = f + 1 := ⟨fuel - 1, by omega⟩
    have hg := hok g (by simp)
    cases hgs : gs ++ bad :: rest with
    | nil => simp at hgs
    | cons it2 more =>
      rw [List.cons_append, hgs, ports_text_cons,
        parse_ports_item f L g _ hg (Or.inr ⟨_, rfl⟩), List.tail_cons, ← hgs]
      exact ih _ bad rest f (fun x hx => hok x (List.mem_cons_of_mem _ hx)) hbad (by omega)

/-- Every range that `rangelist_parse_ports` adds lies within the ports: from a
well-formed list the result, on any text, is well-formed and covers nothing
above 65535 that the list did not cover before. -/
theorem parse_ports_entries (fuel : Nat) :
    ∀ (L : RangeList) (p : List Nat) (R : RangeList), entries_valid L → separated L →
      rangelist_parse_ports fuel L p = some R →
      (entries_valid R ∧ separated R) ∧ ∀ x, covered R x → covered L x ∨ x ≤ 65535 := by
  induction fuel with
  | zero => intro L p R _ _ h; cases h
  | succ f ih =>
    intro L p R hv hs h
    have hstop : ∀ R, some L = some R →
        (entries_valid R ∧ separated R) ∧ ∀ x, covered R x → covered L x ∨ x ≤ 65535 := by
      intro R hR
      cases hR
      exact ⟨⟨hv, hs⟩, fun x hx => Or.inl hx⟩
    have hgo : ∀ (port end_ : Nat) (q : List Nat),
        ¬ (port > 0xFFFF ∨ end_ > 0xFFFF ∨ end_ < port) →
        rangelist_parse_ports f (rangelist_add_range L port end_) q = some R →
        (entries_valid R ∧ separated R) ∧ ∀ x, covered R x → covered L x ∨ x ≤ 65535 := by
      intro port end_ q hc hq
      obtain ⟨a1, a2, a3⟩ := add_range_rec_spec L.length L ⟨port, end_⟩ (Nat.le_refl _) hv hs
        (show port ≤ end_ by omega) (show end_ ≤ 0xFFFFFFFF by omega)
      obtain ⟨r1, r2⟩ := ih _ q R a1 a2 hq
      refine ⟨r1, fun x hx => ?_⟩
      rcases r2 x hx with h' | h'
      · rcases (a3 x).mp h' with h'' | h''
        · exact Or.inl h''
        · simp only at h''
          exact Or.inr (by omega)
      · exact Or.inr h'
    rw [rangelist_parse_ports] at h
    simp only at h
    split_ifs at h
    all_goals first
      | exact hstop R h
      | exact hgo _ _ _ ‹_› h

end Ranges
